import Mathlib

/-!
# gray: force-directed graph layout

A shallow embedding of `gray.c` / `gray.h` and the properties of the graph
store, of the step orchestration, of the two force models, of context
creation and of normalization.

Modelling conventions.

* `size_t` values (vertex indices, edge counts, the iteration counter) are
  natural numbers.  The iteration counter starts at `0` and takes one
  increment per step, so the wrap at `SIZE_MAX` is out of reach of any run.
  The product `n_verticies * n_verticies` of `gr_graph_init` is taken
  modulo `SIZE_MAX + 1`, as `size_t` arithmetic does; `SIZE_MAX` is a
  parameter.
* Pointers that the source asserts to be non-`NULL` (`graph`, `ctx`,
  `ctx->graph`) are values, so those assertions hold by typing.
* A C function that mutates its argument and returns a value becomes a
  function returning the pair (returned value, new state).
* `float` arithmetic is arithmetic in a linearly ordered field `F`; the
  `<math.h>` functions `sqrtf` and `logf` are passed in a record, and so are
  the `<float.h>` constants `FLT_MAX` and `FLT_MIN`.  Statements in real
  arithmetic take `F = ℝ` with `Real.sqrt` and `Real.log`.
* `rand()` is the sequence of the values it returns, `RAND_MAX` a
  parameter.  In `gr_randf` the casts to `float` and the rounding of the
  three `float` results are explicit (`FloatConv`); `binary32` gives them
  for IEEE-754 single precision, round to nearest, ties to even.
* An assertion on the arguments that can fail makes the function return
  `Except` or `Option`.
-/

namespace Gray

/-! ## Graph (`gr_Graph`, `gr_Edge`) -/

/-- The graph of `gray.h`.  `edges_raw` is the single zeroed block that
`gr_graph_init` allocates; the row pointer `edges[i]` is
`edges_raw + n_verticies * i`, so `edges[a][b]` is cell
`n_verticies * a + b` of the block. -/
structure gr_Graph where
  n_verticies : Nat
  edges_raw : List Bool
deriving DecidableEq, Repr

/-- The edge request of `gray.h` (`end_` is the field `end`). -/
structure gr_Edge where
  start : Nat
  end_ : Nat
  directed : Bool
deriving DecidableEq, Repr

/-- The macro `gr_edge_u(a, b)`. -/
def gr_edge_u (a b : Nat) : gr_Edge := { start := a, end_ := b, directed := false }

/-- The macro `gr_edge_d(a, b)`. -/
def gr_edge_d (a b : Nat) : gr_Edge := { start := a, end_ := b, directed := true }

/-- The read `graph->edges[a][b]`. -/
def gr_Graph.edges (g : gr_Graph) (a b : Nat) : Bool :=
  g.edges_raw.getD (g.n_verticies * a + b) false

/-- The write `graph->edges[a][b] = v`. -/
def gr_Graph.edges_set (g : gr_Graph) (a b : Nat) (v : Bool) : gr_Graph :=
  { g with edges_raw := g.edges_raw.set (g.n_verticies * a + b) v }

/-- The block of a graph holds `n_verticies * n_verticies` cells, as
`gr_graph_init` allocates it. -/
def gr_Graph.allocated (g : gr_Graph) : Prop :=
  g.edges_raw.length = g.n_verticies * g.n_verticies

instance (g : gr_Graph) : Decidable g.allocated :=
  inferInstanceAs (Decidable (g.edges_raw.length = g.n_verticies * g.n_verticies))

/-- How a call of `gr_graph_init` can fail: the assertion
`n_verticies > 0` aborts, or one of the two `calloc` calls returns `NULL`
and the function returns `false`. -/
inductive gr_InitError where
  | assertion
  | alloc_failed
deriving DecidableEq, Repr

/-- The function `gr_graph_init`.  `raw_ok` and `rows_ok` say whether the
first and the second `calloc` succeed; `calloc` memory is zeroed, which is
`false` in every cell.  The number of cells requested from the first
`calloc` is the `size_t` product `n_verticies * n_verticies`, which wraps
modulo `SIZE_MAX + 1`. -/
def gr_graph_init (SIZE_MAX : Nat) (raw_ok rows_ok : Bool) (n_verticies : Nat) :
    Except gr_InitError gr_Graph :=
  if n_verticies > 0 then
    if raw_ok then
      if rows_ok then
        Except.ok { n_verticies := n_verticies,
                    edges_raw :=
                      List.replicate ((n_verticies * n_verticies) % (SIZE_MAX + 1)) false }
      else Except.error gr_InitError.alloc_failed
    else Except.error gr_InitError.alloc_failed
  else Except.error gr_InitError.assertion

/-- The function `gr_graph_add_edge`: the returned `bool` and the graph
after the call. -/
def gr_graph_add_edge (graph : gr_Graph) (edge : gr_Edge) : Bool × gr_Graph :=
  if edge.start ≥ graph.n_verticies ∨ edge.end_ ≥ graph.n_verticies then
    (false, graph)
  else
    let g1 := graph.edges_set edge.start edge.end_ true
    let g2 := if !edge.directed then g1.edges_set edge.end_ edge.start true else g1
    (true, g2)

/-- The loop of `gr_graph_add_edges` from index `i` on, over the edges not
yet visited. -/
def gr_graph_add_edges_from (graph : gr_Graph) (i : Nat) :
    List gr_Edge → Nat × gr_Graph
  | [] => (0, graph)
  | e :: rest =>
    match gr_graph_add_edge graph e with
    | (false, g) => (i, g)
    | (true, g) => gr_graph_add_edges_from g (i + 1) rest

/-- The function `gr_graph_add_edges`; the list stands for the array
`edges` of length `n_edges`.  The returned `size_t` and the graph after
the call. -/
def gr_graph_add_edges (graph : gr_Graph) (edges : List gr_Edge) : Nat × gr_Graph :=
  gr_graph_add_edges_from graph 0 edges

/-- An edge whose two endpoints are vertices of the graph. -/
def gr_Edge.in_bounds (e : gr_Edge) (g : gr_Graph) : Prop :=
  e.start < g.n_verticies ∧ e.end_ < g.n_verticies

instance (e : gr_Edge) (g : gr_Graph) : Decidable (e.in_bounds g) :=
  inferInstanceAs (Decidable (e.start < g.n_verticies ∧ e.end_ < g.n_verticies))

/-- Applying `gr_graph_add_edge` to each edge of a list in order, keeping
only the graph. -/
def add_each (g : gr_Graph) (es : List gr_Edge) : gr_Graph :=
  es.foldl (fun acc e => (gr_graph_add_edge acc e).2) g

/-- The adjacency of a graph is symmetric: `edges[a][b] == edges[b][a]`
for all vertices `a`, `b`. -/
def gr_Graph.symmetric (g : gr_Graph) : Prop :=
  ∀ a, a < g.n_verticies → ∀ b, b < g.n_verticies → g.edges a b = g.edges b a

instance (g : gr_Graph) : Decidable g.symmetric :=
  inferInstanceAs (Decidable
    (∀ a, a < g.n_verticies → ∀ b, b < g.n_verticies → g.edges a b = g.edges b a))

/-- The graphs that can be built from a successful `gr_graph_init`, whose
product `n * n` does not exceed `SIZE_MAX`, with calls of
`gr_graph_add_edge` and `gr_graph_add_edges` on undirected edges only. -/
inductive built_undirected : gr_Graph → Prop where
  | init (SIZE_MAX n : Nat) (g : gr_Graph) :
      n * n ≤ SIZE_MAX →
      gr_graph_init SIZE_MAX true true n = Except.ok g → built_undirected g
  | add_edge (g : gr_Graph) (e : gr_Edge) :
      built_undirected g → e.directed = false →
      built_undirected (gr_graph_add_edge g e).2
  | add_edges (g : gr_Graph) (es : List gr_Edge) :
      built_undirected g → (∀ e ∈ es, e.directed = false) →
      built_undirected (gr_graph_add_edges g es).2

/-! ## Render methods and the render context -/

/-- The point type `gr_Vec2`. -/
structure gr_Vec2 (F : Type) where
  x : F
  y : F
deriving DecidableEq, Repr

/-- The two functions of `<math.h>` that the step functions call. -/
structure MathH (F : Type) where
  sqrtf : F → F
  logf : F → F

/-- The tag `enum gr_RenderMethodKind`. -/
inductive gr_RenderMethodKind where
  | GR_RM_Eades
  | GR_RM_Fruchterman_and_Reingold
deriving DecidableEq, Repr

/-- The record `struct gr_RenderMethodEades` (its constant tag is the
constructor of `gr_RenderMethod`). -/
structure gr_RenderMethodEades (F : Type) where
  c1 : F
  c2 : F
  c3 : F
  c4 : F
  grav_cen : gr_Vec2 F
deriving DecidableEq, Repr

/-- The record `struct gr_RenderMethodFruchtgold`. -/
structure gr_RenderMethodFruchtgold (F : Type) where
  c : F
  area : F
  cur_temp : F
  decay : F
  grav_cen : gr_Vec2 F
deriving DecidableEq, Repr

/-- The tagged union `gr_RenderMethod`. -/
inductive gr_RenderMethod (F : Type) where
  | eades (e : gr_RenderMethodEades F)
  | fruchtgold (f : gr_RenderMethodFruchtgold F)
deriving DecidableEq, Repr

/-- The member `kind` of the union. -/
def gr_RenderMethod.kind {F : Type} : gr_RenderMethod F → gr_RenderMethodKind
  | gr_RenderMethod.eades _ => gr_RenderMethodKind.GR_RM_Eades
  | gr_RenderMethod.fruchtgold _ => gr_RenderMethodKind.GR_RM_Fruchterman_and_Reingold

/-- The record `gr_RenderContext`.  `vertex_pos` is the position buffer; a
`NULL` buffer is the empty list. -/
structure gr_RenderContext (F : Type) where
  graph : gr_Graph
  method : gr_RenderMethod F
  positions_initialized : Bool
  vertex_pos : List (gr_Vec2 F)
  cur_iteration : Nat
deriving DecidableEq, Repr

section Step

variable {F : Type} [LinearOrderedField F]

/-- The macro `gr_vec2zero()`. -/
def gr_vec2zero : gr_Vec2 F := { x := 0, y := 0 }

/-- The macro `gr_sq(n)`. -/
def gr_sq (n : F) : F := n * n

/-- The macro `gr_not0f(n)`: `0.000000000001` in place of an exact zero. -/
def gr_not0f (n : F) : F := if n = 0 then 1 / 1000000000000 else n

/-- The read `ctx->vertex_pos[i]`; a read past the buffer, undefined in
the source, gives the zero vector. -/
def vertex_pos_at (vertex_pos : List (gr_Vec2 F)) (i : Nat) : gr_Vec2 F :=
  vertex_pos.getD i gr_vec2zero

/-- One pass of the inner loop body of `gr_step_method_eades`: the force
on vertex `n` after the contribution of index `i`. -/
def gr_eades_body (M : MathH F) (graph : gr_Graph) (eades : gr_RenderMethodEades F)
    (vertex_pos : List (gr_Vec2 F)) (n : Nat) (force : gr_Vec2 F) (i : Nat) : gr_Vec2 F :=
  let other := if n = i then eades.grav_cen else vertex_pos_at vertex_pos i
  let d_x := other.x - (vertex_pos_at vertex_pos n).x
  let d_y := other.y - (vertex_pos_at vertex_pos n).y
  let d := gr_not0f (M.sqrtf (gr_sq d_x + gr_sq d_y))
  if graph.edges n i = true ∨ n = i then
    { x := force.x + (eades.c1 * M.logf (d / eades.c2)) * (d_x / d),
      y := force.y + (eades.c1 * M.logf (d / eades.c2)) * (d_y / d) }
  else if d ≠ 0 then
    { x := force.x - eades.c3 / gr_sq d * (d_x / d),
      y := force.y - eades.c3 / gr_sq d * (d_y / d) }
  else force

/-- The outer loop body of `gr_step_method_eades` for vertex `n`: the
inner loop, then the update of `vertex_pos[n]` in place. -/
def gr_eades_vertex (M : MathH F) (graph : gr_Graph) (eades : gr_RenderMethodEades F)
    (vertex_pos : List (gr_Vec2 F)) (n : Nat) : List (gr_Vec2 F) :=
  let force := (List.range graph.n_verticies).foldl
    (gr_eades_body M graph eades vertex_pos n) gr_vec2zero
  vertex_pos.set n
    { x := (vertex_pos_at vertex_pos n).x + eades.c4 * force.x,
      y := (vertex_pos_at vertex_pos n).y + eades.c4 * force.y }

/-- The function `gr_step_method_eades`. -/
def gr_step_method_eades (M : MathH F) (ctx : gr_RenderContext F)
    (eades : gr_RenderMethodEades F) : gr_RenderContext F :=
  { ctx with
    vertex_pos := (List.range ctx.graph.n_verticies).foldl
      (gr_eades_vertex M ctx.graph eades) ctx.vertex_pos }

/-- One pass of the inner loop body of
`gr_step_method_fruchtman_and_reingold`, for the ideal length `k`. -/
def gr_fruchtgold_body (M : MathH F) (graph : gr_Graph)
    (fag : gr_RenderMethodFruchtgold F) (k : F)
    (vertex_pos : List (gr_Vec2 F)) (n : Nat) (force : gr_Vec2 F) (i : Nat) : gr_Vec2 F :=
  let other := if n = i then fag.grav_cen else vertex_pos_at vertex_pos i
  let d_x := other.x - (vertex_pos_at vertex_pos n).x
  let d_y := other.y - (vertex_pos_at vertex_pos n).y
  let d_sq := gr_sq d_x + gr_sq d_y
  let d := gr_not0f (M.sqrtf d_sq)
  if graph.edges n i = true ∨ n = i then
    { x := force.x + (d_sq / k) * (d_x / d),
      y := force.y + (d_sq / k) * (d_y / d) }
  else
    { x := force.x + (-gr_sq k / d) * (d_x / d),
      y := force.y + (-gr_sq k / d) * (d_y / d) }

/-- The outer loop body of `gr_step_method_fruchtman_and_reingold` for
vertex `n`. -/
def gr_fruchtgold_vertex (M : MathH F) (graph : gr_Graph)
    (fag : gr_RenderMethodFruchtgold F) (k : F)
    (vertex_pos : List (gr_Vec2 F)) (n : Nat) : List (gr_Vec2 F) :=
  let force := (List.range graph.n_verticies).foldl
    (gr_fruchtgold_body M graph fag k vertex_pos n) gr_vec2zero
  vertex_pos.set n
    { x := (vertex_pos_at vertex_pos n).x + fag.cur_temp * force.x,
      y := (vertex_pos_at vertex_pos n).y + fag.cur_temp * force.y }

/-- The function `gr_step_method_fruchtman_and_reingold`: the pass over
the vertices, then the cooling of `cur_temp`, floored at `0`. -/
def gr_step_method_fruchtman_and_reingold (M : MathH F) (ctx : gr_RenderContext F)
    (fag : gr_RenderMethodFruchtgold F) : gr_RenderContext F :=
  let k := fag.c * M.sqrtf (fag.area / (ctx.graph.n_verticies : F))
  let vertex_pos := (List.range ctx.graph.n_verticies).foldl
    (gr_fruchtgold_vertex M ctx.graph fag k) ctx.vertex_pos
  let cooled := fag.cur_temp - fag.decay
  { ctx with
    vertex_pos := vertex_pos,
    method := gr_RenderMethod.fruchtgold
      { fag with cur_temp := if cooled < 0 then 0 else cooled } }

/-- The function `gr_render_step_unchecked`: dispatch on the tag, then
`cur_iteration += 1`. -/
def gr_render_step_unchecked (M : MathH F) (ctx : gr_RenderContext F) :
    gr_RenderContext F :=
  let stepped :=
    match ctx.method with
    | gr_RenderMethod.eades e => gr_step_method_eades M ctx e
    | gr_RenderMethod.fruchtgold f => gr_step_method_fruchtman_and_reingold M ctx f
  { stepped with cur_iteration := stepped.cur_iteration + 1 }

/-- The function `gr_render_step`. -/
def gr_render_step (M : MathH F) (ctx : gr_RenderContext F) : gr_RenderContext F :=
  gr_render_step_unchecked M ctx

/-- The function `gr_render_step_for`: the counting loop over
`i = 0, ..., iterations - 1`. -/
def gr_render_step_for (M : MathH F) (ctx : gr_RenderContext F) (iterations : Nat) :
    gr_RenderContext F :=
  (List.range iterations).foldl (fun c _ => gr_render_step_unchecked M c) ctx

/-- The function `gr_render_step_until`: the loop
`while (ctx->cur_iteration < target_iterations)`.  It is total: every pass
brings `cur_iteration` one closer to the target. -/
def gr_render_step_until (M : MathH F) (ctx : gr_RenderContext F)
    (target_iterations : Nat) : gr_RenderContext F :=
  if ctx.cur_iteration < target_iterations then
    gr_render_step_until M (gr_render_step_unchecked M ctx) target_iterations
  else ctx
termination_by target_iterations - ctx.cur_iteration
decreasing_by
  simp only [gr_render_step_unchecked]
  split <;>
    simp only [gr_step_method_eades, gr_step_method_fruchtman_and_reingold] <;> omega

end Step

/-! ## Default methods, context creation and normalization -/

section Create

variable {F : Type} [LinearOrderedField F]

/-- The macro `GR_DEFAULT_ITERATIONS`. -/
def GR_DEFAULT_ITERATIONS : Nat := 100

/-- The macro `GR_DEFAULT_GRAV_CEN`. -/
def GR_DEFAULT_GRAV_CEN : gr_Vec2 F := gr_vec2zero

/-- The macro `GR_DEFAULT_EADES_C1`. -/
def GR_DEFAULT_EADES_C1 : F := 2

/-- The macro `GR_DEFAULT_EADES_C2`. -/
def GR_DEFAULT_EADES_C2 : F := 1

/-- The macro `GR_DEFAULT_EADES_C3`. -/
def GR_DEFAULT_EADES_C3 : F := 1

/-- The macro `GR_DEFAULT_EADES_C4`, the decimal `0.1`. -/
def GR_DEFAULT_EADES_C4 : F := 1 / 10

/-- The macro `GR_DEFAULT_FRUCHTGOLD_C`, the decimal `0.1`. -/
def GR_DEFAULT_FRUCHTGOLD_C : F := 1 / 10

/-- The macro `GR_DEFAULT_FRUCHTGOLD_AREA`. -/
def GR_DEFAULT_FRUCHTGOLD_AREA : F := 100

/-- The macro `GR_DEFAULT_FRUCHTGOLD_TEMP`, the decimal `0.1`. -/
def GR_DEFAULT_FRUCHTGOLD_TEMP : F := 1 / 10

/-- The macro `GR_DEFAULT_FRUCHTGOLD_DECAY(temp, iters)`. -/
def GR_DEFAULT_FRUCHTGOLD_DECAY (temp : F) (iters : Nat) : F := temp / (iters : F)

/-- The function `gr_method_create`; the tag type is closed, so the
aborting `default` branch has no counterpart. -/
def gr_method_create (kind : gr_RenderMethodKind) : gr_RenderMethod F :=
  match kind with
  | gr_RenderMethodKind.GR_RM_Eades =>
    gr_RenderMethod.eades
      { c1 := GR_DEFAULT_EADES_C1,
        c2 := GR_DEFAULT_EADES_C2,
        c3 := GR_DEFAULT_EADES_C3,
        c4 := GR_DEFAULT_EADES_C4,
        grav_cen := GR_DEFAULT_GRAV_CEN }
  | gr_RenderMethodKind.GR_RM_Fruchterman_and_Reingold =>
    gr_RenderMethod.fruchtgold
      { c := GR_DEFAULT_FRUCHTGOLD_C,
        area := GR_DEFAULT_FRUCHTGOLD_AREA,
        cur_temp := GR_DEFAULT_FRUCHTGOLD_TEMP,
        decay := GR_DEFAULT_FRUCHTGOLD_DECAY GR_DEFAULT_FRUCHTGOLD_TEMP
          GR_DEFAULT_ITERATIONS,
        grav_cen := GR_DEFAULT_GRAV_CEN }

/-- The `float` conversions of `gr_randf`: `of_int n` is the value of the
cast `(float) n` of an integer `n >= 0`, and `round x` is the `float` that
an arithmetic operation with exact result `x` returns. -/
structure FloatConv (F : Type) where
  of_int : Nat → F
  round : F → F

/-- Rounding of a rational number to the nearest integer, ties to the even
one. -/
def round_half_even (x : ℚ) : ℤ :=
  if x - ⌊x⌋ < 1 / 2 then ⌊x⌋
  else if 1 / 2 < x - ⌊x⌋ then ⌊x⌋ + 1
  else if ⌊x⌋ % 2 = 0 then ⌊x⌋
  else ⌊x⌋ + 1

/-- The spacing of the IEEE-754 single precision numbers around `x`:
`2 ^ (e - 23)` for the binary exponent `e` of `x`, which is at least
`-126`. -/
def float_ulp (x : ℚ) : ℚ :=
  (2 : ℚ) ^ (max (Int.log 2 |x|) (-126) - 23)

/-- The IEEE-754 single precision number nearest to `x`, ties to even, in
the range without overflow: what the cast `(float)` and the `float`
operations return for the exact value `x`. -/
def float_round (x : ℚ) : ℚ :=
  (round_half_even (x / float_ulp x) : ℚ) * float_ulp x

/-- The conversions of IEEE-754 single precision, round to nearest. -/
def binary32 : FloatConv ℚ :=
  { of_int := fun n => float_round (n : ℚ),
    round := float_round }

/-- The macro `gr_randf(min, max)` for one value `r` returned by `rand()`;
`RAND_MAX` is the constant of `<stdlib.h>`.  `rand()` and `RAND_MAX` are
cast to `float`, and the quotient, the product and the sum are `float`
results. -/
def gr_randf (A : FloatConv F) (RAND_MAX : Nat) (r : Nat) (min max : F) : F :=
  A.round (min + A.round (A.round (A.of_int r / A.of_int RAND_MAX) * (max - min)))

/-- The loop body of `gr_render_ctx_create_ex` for vertex `i`.  `rand k` is
the value of the `k`-th call of `rand()`; vertex `i` takes call `2 * i` for
`x` and call `2 * i + 1` for `y`. -/
def gr_ctx_create_body (A : FloatConv F) (RAND_MAX : Nat) (rand : Nat → Nat)
    (vertex_pos : List (gr_Vec2 F)) (i : Nat) : List (gr_Vec2 F) :=
  vertex_pos.set i
    { x := gr_randf A RAND_MAX (rand (2 * i)) 0 1,
      y := gr_randf A RAND_MAX (rand (2 * i + 1)) 0 1 }

/-- The function `gr_render_ctx_create_ex`, with the `calloc` of the
position buffer succeeding (zeroed cells). -/
def gr_render_ctx_create_ex (A : FloatConv F) (RAND_MAX : Nat) (rand : Nat → Nat)
    (graph : gr_Graph) (method : gr_RenderMethod F) (init_positions : Bool) :
    gr_RenderContext F :=
  { graph := graph,
    method := method,
    positions_initialized := init_positions,
    vertex_pos :=
      if init_positions then
        (List.range graph.n_verticies).foldl (gr_ctx_create_body A RAND_MAX rand)
          (List.replicate graph.n_verticies gr_vec2zero)
      else [],
    cur_iteration := 0 }

/-- The two constants of `<float.h>` that `gr_render_ctx_normalize_ex`
reads. -/
structure FloatH (F : Type) where
  FLT_MAX : F
  FLT_MIN : F

/-- The values of `FLT_MAX` and `FLT_MIN` for IEEE-754 single precision:
`2^128 - 2^104` and `2^(-126)`. -/
def ieee_single : FloatH F :=
  { FLT_MAX := 340282346638528859811704183484516925440,
    FLT_MIN := 1 / 85070591730234615865843651857942052864 }

/-- The macro `gr_lerpf(v, min1, max1, min2, max2)`. -/
def gr_lerpf (v min1 max1 min2 max2 : F) : F :=
  min2 + ((v - min1) / (max1 - min1)) * (max2 - min2)

/-- The body of the first loop of `gr_render_ctx_normalize_ex`: the pair
`(min, max)` after looking at vertex `i`. -/
def gr_normalize_scan_body (vertex_pos : List (gr_Vec2 F))
    (acc : gr_Vec2 F × gr_Vec2 F) (i : Nat) : gr_Vec2 F × gr_Vec2 F :=
  let min0 := acc.1
  let max0 := acc.2
  let min1 : gr_Vec2 F :=
    if (vertex_pos_at vertex_pos i).x < min0.x then
      { min0 with x := (vertex_pos_at vertex_pos i).x } else min0
  let min2 : gr_Vec2 F :=
    if (vertex_pos_at vertex_pos i).y < min1.y then
      { min1 with y := (vertex_pos_at vertex_pos i).y } else min1
  let max1 : gr_Vec2 F :=
    if (vertex_pos_at vertex_pos i).x > max0.x then
      { max0 with x := (vertex_pos_at vertex_pos i).x } else max0
  let max2 : gr_Vec2 F :=
    if (vertex_pos_at vertex_pos i).y > max1.y then
      { max1 with y := (vertex_pos_at vertex_pos i).y } else max1
  (min2, max2)

/-- The first loop of `gr_render_ctx_normalize_ex`: the pair `(min, max)`
it leaves, from the start values `FLT_MAX` and `FLT_MIN`. -/
def gr_normalize_scan (L : FloatH F) (ctx : gr_RenderContext F) :
    gr_Vec2 F × gr_Vec2 F :=
  (List.range ctx.graph.n_verticies).foldl (gr_normalize_scan_body ctx.vertex_pos)
    ({ x := L.FLT_MAX, y := L.FLT_MAX }, { x := L.FLT_MIN, y := L.FLT_MIN })

/-- The body of the second loop of `gr_render_ctx_normalize_ex`. -/
def gr_normalize_lerp_body (min max mins maxs : gr_Vec2 F)
    (vertex_pos : List (gr_Vec2 F)) (i : Nat) : List (gr_Vec2 F) :=
  vertex_pos.set i
    { x := gr_lerpf (vertex_pos_at vertex_pos i).x min.x max.x mins.x maxs.x,
      y := gr_lerpf (vertex_pos_at vertex_pos i).y min.y max.y mins.y maxs.y }

/-- The function `gr_render_ctx_normalize_ex`; `none` when the assertion
`mins.x < maxs.x && mins.y < maxs.y` aborts. -/
def gr_render_ctx_normalize_ex (L : FloatH F) (ctx : gr_RenderContext F)
    (mins maxs : gr_Vec2 F) : Option (gr_RenderContext F) :=
  if mins.x < maxs.x ∧ mins.y < maxs.y then
    some { ctx with
      vertex_pos := (List.range ctx.graph.n_verticies).foldl
        (gr_normalize_lerp_body (gr_normalize_scan L ctx).1 (gr_normalize_scan L ctx).2
          mins maxs) ctx.vertex_pos }
  else none

/-- The divisor `d` of both step functions for the points `other` and
`self`: the Euclidean distance, with `gr_not0f` applied. -/
def gr_step_distance (M : MathH F) (other self : gr_Vec2 F) : F :=
  gr_not0f (M.sqrtf (gr_sq (other.x - self.x) + gr_sq (other.y - self.y)))

/-- The point that vertex `n` is paired with at index `i` in both step
functions: the gravity centre when `i = n`, the position of `i`
otherwise. -/
def gr_step_other (grav_cen : gr_Vec2 F) (vertex_pos : List (gr_Vec2 F))
    (n i : Nat) : gr_Vec2 F :=
  if n = i then grav_cen else vertex_pos_at vertex_pos i

/-- The two branches of the inner loop body of `gr_step_method_eades`, for
given differences `d_x`, `d_y` and divisor `d`. -/
def gr_eades_force_add (M : MathH F) (graph : gr_Graph) (eades : gr_RenderMethodEades F)
    (n i : Nat) (force : gr_Vec2 F) (d_x d_y d : F) : gr_Vec2 F :=
  if graph.edges n i = true ∨ n = i then
    { x := force.x + (eades.c1 * M.logf (d / eades.c2)) * (d_x / d),
      y := force.y + (eades.c1 * M.logf (d / eades.c2)) * (d_y / d) }
  else if d ≠ 0 then
    { x := force.x - eades.c3 / gr_sq d * (d_x / d),
      y := force.y - eades.c3 / gr_sq d * (d_y / d) }
  else force

/-- The two branches of the inner loop body of
`gr_step_method_fruchtman_and_reingold`, for given differences `d_x`,
`d_y`, squared distance `d_sq` and divisor `d`. -/
def gr_fruchtgold_force_add (graph : gr_Graph) (k : F)
    (n i : Nat) (force : gr_Vec2 F) (d_x d_y d_sq d : F) : gr_Vec2 F :=
  if graph.edges n i = true ∨ n = i then
    { x := force.x + (d_sq / k) * (d_x / d),
      y := force.y + (d_sq / k) * (d_y / d) }
  else
    { x := force.x + (-gr_sq k / d) * (d_x / d),
      y := force.y + (-gr_sq k / d) * (d_y / d) }

/-- The Jacobi variant of the Eades pass, for comparison with
`gr_step_method_eades`: every vertex is updated from the positions before
the pass. -/
def eades_jacobi (M : MathH F) (ctx : gr_RenderContext F)
    (eades : gr_RenderMethodEades F) : List (gr_Vec2 F) :=
  (List.range ctx.graph.n_verticies).map
    (fun n => vertex_pos_at (gr_eades_vertex M ctx.graph eades ctx.vertex_pos n) n)

/-- The path graph on three vertices, built as in the example scenario:
`gr_graph_init` with 3 vertices, then the undirected edges `(0,1)` and
`(1,2)`. -/
def path3 : gr_Graph :=
  (gr_graph_add_edges { n_verticies := 3, edges_raw := List.replicate 9 false }
    [gr_edge_u 0 1, gr_edge_u 1 2]).2

/-- The example scenario: `path3`, the default Eades method and the
positions `(0,0), (1,0), (2,0)`. -/
def eades_example : gr_RenderContext F :=
  { graph := path3,
    method := gr_method_create gr_RenderMethodKind.GR_RM_Eades,
    positions_initialized := false,
    vertex_pos := [{ x := 0, y := 0 }, { x := 1, y := 0 }, { x := 2, y := 0 }],
    cur_iteration := 0 }

/-- A two-vertex context whose coordinates are all negative:
positions `(-2,-2)` and `(-1,-1)`. -/
def below_zero_pair : gr_RenderContext ℚ :=
  { graph := { n_verticies := 2, edges_raw := [false, false, false, false] },
    method := gr_method_create gr_RenderMethodKind.GR_RM_Eades,
    positions_initialized := false,
    vertex_pos := [{ x := -2, y := -2 }, { x := -1, y := -1 }],
    cur_iteration := 0 }

/-- A one-vertex context with its vertex on the default gravity centre
`(0,0)`. -/
def single_origin : gr_RenderContext ℚ :=
  { graph := { n_verticies := 1, edges_raw := [false] },
    method := gr_method_create gr_RenderMethodKind.GR_RM_Eades,
    positions_initialized := false,
    vertex_pos := [{ x := 0, y := 0 }],
    cur_iteration := 0 }

/-- A two-vertex context with positive coordinates: positions `(1,2)` and
`(3,1)`. -/
def above_zero_pair : gr_RenderContext ℚ :=
  { graph := { n_verticies := 2, edges_raw := [false, false, false, false] },
    method := gr_method_create gr_RenderMethodKind.GR_RM_Eades,
    positions_initialized := false,
    vertex_pos := [{ x := 1, y := 2 }, { x := 3, y := 1 }],
    cur_iteration := 0 }

end Create

/-! ## Helper lemmas on the graph -/

theorem cell_index_inj {n a b c d : Nat} (hb : b < n) (hd : d < n)
    (h : n * a + b = n * c + d) : a = c ∧ b = d := by
  have hn : 0 < n := by omega
  have h1 : (n * a + b) / n = a := by
    rw [Nat.mul_add_div hn, Nat.div_eq_of_lt hb]; rfl
  have h2 : (n * c + d) / n = c := by
    rw [Nat.mul_add_div hn, Nat.div_eq_of_lt hd]; rfl
  have hac : a = c := by rw [← h1, ← h2, h]
  subst hac
  exact ⟨rfl, by omega⟩

theorem cell_index_lt {n a b : Nat} (ha : a < n) (hb : b < n) : n * a + b < n * n := by
  have : n * a + n ≤ n * n := by
    have := Nat.mul_le_mul_left n (Nat.succ_le_of_lt ha)
    simpa [Nat.mul_succ] using this
  omega

@[simp] theorem edges_set_n_verticies (g : gr_Graph) (a b : Nat) (v : Bool) :
    (g.edges_set a b v).n_verticies = g.n_verticies := rfl

theorem edges_set_allocated (g : gr_Graph) (a b : Nat) (v : Bool) (h : g.allocated) :
    (g.edges_set a b v).allocated := by
  unfold gr_Graph.allocated at *
  simp [gr_Graph.edges_set, h]

theorem edges_set_same (g : gr_Graph) (a b : Nat) (v : Bool) (h : g.allocated)
    (ha : a < g.n_verticies) (hb : b < g.n_verticies) :
    (g.edges_set a b v).edges a b = v := by
  unfold gr_Graph.allocated at h
  have hlt := cell_index_lt ha hb
  simp [gr_Graph.edges_set, gr_Graph.edges, List.getD_eq_getElem?_getD, h, hlt]

theorem edges_set_other (g : gr_Graph) (a b i j : Nat) (v : Bool)
    (hb : b < g.n_verticies) (hj : j < g.n_verticies) (hne : ¬ (i = a ∧ j = b)) :
    (g.edges_set a b v).edges i j = g.edges i j := by
  have hidx : g.n_verticies * a + b ≠ g.n_verticies * i + j := by
    intro h
    have := cell_index_inj hb hj h
    exact hne ⟨this.1.symm, this.2.symm⟩
  simp [gr_Graph.edges_set, gr_Graph.edges, List.getD_eq_getElem?_getD,
    List.getElem?_set_ne hidx]

theorem edges_set_true_mono (g : gr_Graph) (a b i j : Nat)
    (h : g.edges i j = true) : (g.edges_set a b true).edges i j = true := by
  simp only [gr_Graph.edges_set, gr_Graph.edges, List.getD_eq_getElem?_getD] at *
  by_cases hidx : g.n_verticies * a + b = g.n_verticies * i + j
  · rw [hidx, List.getElem?_set]
    simp only [if_true]
    split
    · rfl
    · rename_i hlen
      rw [List.getElem?_eq_none (by omega)] at h
      simp at h
  · rw [List.getElem?_set_ne hidx]; exact h

theorem edges_set_idem (g : gr_Graph) (a b : Nat) (v : Bool) :
    (g.edges_set a b v).edges_set a b v = g.edges_set a b v := by
  simp [gr_Graph.edges_set, List.set_set]

theorem edges_set_comm_true (g : gr_Graph) (a b c d : Nat) :
    ((g.edges_set a b true).edges_set c d true).edges_set a b true
      = (g.edges_set a b true).edges_set c d true := by
  simp only [gr_Graph.edges_set]
  by_cases h : g.n_verticies * a + b = g.n_verticies * c + d
  · simp [h, List.set_set]
  · have hc : (g.edges_raw.set (g.n_verticies * a + b) true).set (g.n_verticies * c + d) true
        = (g.edges_raw.set (g.n_verticies * c + d) true).set (g.n_verticies * a + b) true :=
      List.set_comm true true g.edges_raw h
    rw [hc, List.set_set]

theorem add_edge_in_bounds_eq (g : gr_Graph) (e : gr_Edge) (he : e.in_bounds g) :
    gr_graph_add_edge g e =
      (true, if e.directed = true then g.edges_set e.start e.end_ true
             else (g.edges_set e.start e.end_ true).edges_set e.end_ e.start true) := by
  obtain ⟨h1, h2⟩ := he
  have hcond : ¬ (e.start ≥ g.n_verticies ∨ e.end_ ≥ g.n_verticies) := by omega
  unfold gr_graph_add_edge
  rw [if_neg hcond]
  cases e.directed <;> simp

theorem add_edge_out_of_bounds_eq (g : gr_Graph) (e : gr_Edge) (he : ¬ e.in_bounds g) :
    gr_graph_add_edge g e = (false, g) := by
  have hcond : e.start ≥ g.n_verticies ∨ e.end_ ≥ g.n_verticies := by
    unfold gr_Edge.in_bounds at he
    omega
  unfold gr_graph_add_edge
  rw [if_pos hcond]

theorem add_edge_n_verticies (g : gr_Graph) (e : gr_Edge) :
    (gr_graph_add_edge g e).2.n_verticies = g.n_verticies := by
  by_cases he : e.in_bounds g
  · rw [add_edge_in_bounds_eq g e he]
    cases e.directed <;> simp
  · rw [add_edge_out_of_bounds_eq g e he]

theorem in_bounds_congr (e : gr_Edge) (g h : gr_Graph)
    (hn : h.n_verticies = g.n_verticies) : e.in_bounds h ↔ e.in_bounds g := by
  unfold gr_Edge.in_bounds
  rw [hn]

theorem add_edges_from_in_bounds (g : gr_Graph) (i : Nat) (e : gr_Edge)
    (rest : List gr_Edge) (he : e.in_bounds g) :
    gr_graph_add_edges_from g i (e :: rest)
      = gr_graph_add_edges_from (gr_graph_add_edge g e).2 (i + 1) rest := by
  rw [gr_graph_add_edges_from, add_edge_in_bounds_eq g e he]

theorem add_edges_from_out_of_bounds (g : gr_Graph) (i : Nat) (e : gr_Edge)
    (rest : List gr_Edge) (he : ¬ e.in_bounds g) :
    gr_graph_add_edges_from g i (e :: rest) = (i, g) := by
  rw [gr_graph_add_edges_from, add_edge_out_of_bounds_eq g e he]

/-! ## The graph store -/

/-- C1: in an allocated graph with `n` vertices, adding the undirected edge
`(a, b)` with `a, b < n` returns `true` and leaves both `edges[a][b]` and
`edges[b][a]` set. -/
theorem add_edge_undirected_sets_both (g : gr_Graph) (a b : Nat) (hg : g.allocated)
    (ha : a < g.n_verticies) (hb : b < g.n_verticies) :
    (gr_graph_add_edge g (gr_edge_u a b)).1 = true ∧
    (gr_graph_add_edge g (gr_edge_u a b)).2.edges a b = true ∧
    (gr_graph_add_edge g (gr_edge_u a b)).2.edges b a = true := by
  have he : (gr_edge_u a b).in_bounds g := ⟨ha, hb⟩
  rw [add_edge_in_bounds_eq g _ he]
  simp only [gr_edge_u, Bool.false_eq_true, if_false, true_and]
  constructor
  · exact edges_set_true_mono _ _ _ _ _ (edges_set_same g a b true hg ha hb)
  · exact edges_set_same _ b a true (edges_set_allocated g a b true hg) hb ha

theorem add_edge_undirected_sets_both_witness :
    (gr_graph_add_edge ⟨3, List.replicate 9 false⟩ (gr_edge_u 0 2)).1 = true ∧
    (gr_graph_add_edge ⟨3, List.replicate 9 false⟩ (gr_edge_u 0 2)).2.edges 0 2 = true ∧
    (gr_graph_add_edge ⟨3, List.replicate 9 false⟩ (gr_edge_u 0 2)).2.edges 2 0 = true :=
  add_edge_undirected_sets_both ⟨3, List.replicate 9 false⟩ 0 2
    (by decide) (by decide) (by decide)

/-- C2: `gr_graph_add_edge` returns `false` exactly when `start >= n` or
`end >= n`, and then the graph, hence every adjacency entry, is as it
was. -/
theorem add_edge_false_iff_out_of_bounds (g : gr_Graph) (e : gr_Edge) :
    ((gr_graph_add_edge g e).1 = false ↔
      (e.start ≥ g.n_verticies ∨ e.end_ ≥ g.n_verticies)) ∧
    ((e.start ≥ g.n_verticies ∨ e.end_ ≥ g.n_verticies) →
      (gr_graph_add_edge g e).2 = g) := by
  by_cases he : e.in_bounds g
  · have hcond : ¬ (e.start ≥ g.n_verticies ∨ e.end_ ≥ g.n_verticies) := by
      unfold gr_Edge.in_bounds at he
      omega
    rw [add_edge_in_bounds_eq g e he]
    exact ⟨⟨fun h => by simp at h, fun h => absurd h hcond⟩, fun h => absurd h hcond⟩
  · have hcond : e.start ≥ g.n_verticies ∨ e.end_ ≥ g.n_verticies := by
      unfold gr_Edge.in_bounds at he
      omega
    rw [add_edge_out_of_bounds_eq g e he]
    exact ⟨⟨fun _ => hcond, fun _ => rfl⟩, fun _ => rfl⟩

theorem add_edge_false_iff_out_of_bounds_witness :
    ((gr_graph_add_edge ⟨2, [true, false, false, true]⟩ (gr_edge_d 0 2)).1 = false ↔
      ((gr_edge_d 0 2).start ≥ 2 ∨ (gr_edge_d 0 2).end_ ≥ 2)) ∧
    (gr_graph_add_edge ⟨2, [true, false, false, true]⟩ (gr_edge_d 0 2)).2
      = ⟨2, [true, false, false, true]⟩ :=
  ⟨(add_edge_false_iff_out_of_bounds ⟨2, [true, false, false, true]⟩ (gr_edge_d 0 2)).1,
   (add_edge_false_iff_out_of_bounds ⟨2, [true, false, false, true]⟩ (gr_edge_d 0 2)).2
     (by decide)⟩

/-- C4: `gr_graph_add_edge` is idempotent: adding an in-bounds edge a second
time returns `true` and gives the graph obtained by adding it once. -/
theorem add_edge_idempotent (g : gr_Graph) (e : gr_Edge) (he : e.in_bounds g) :
    gr_graph_add_edge (gr_graph_add_edge g e).2 e = (true, (gr_graph_add_edge g e).2) := by
  have he2 : e.in_bounds (gr_graph_add_edge g e).2 :=
    (in_bounds_congr e g _ (add_edge_n_verticies g e)).2 he
  rw [add_edge_in_bounds_eq _ e he2, add_edge_in_bounds_eq g e he]
  cases hd : e.directed
  · simp only [Bool.false_eq_true, if_false]
    rw [edges_set_comm_true, edges_set_comm_true]
  · simp only [if_true]
    rw [edges_set_idem]

theorem add_edge_idempotent_witness :
    gr_graph_add_edge (gr_graph_add_edge ⟨2, [false, false, false, false]⟩ (gr_edge_u 0 1)).2
        (gr_edge_u 0 1)
      = (true, (gr_graph_add_edge ⟨2, [false, false, false, false]⟩ (gr_edge_u 0 1)).2) :=
  add_edge_idempotent ⟨2, [false, false, false, false]⟩ (gr_edge_u 0 1) (by decide)

theorem add_each_cons (g : gr_Graph) (e : gr_Edge) (es : List gr_Edge) :
    add_each g (e :: es) = add_each (gr_graph_add_edge g e).2 es := by
  simp [add_each]

theorem add_edges_from_stop (es : List gr_Edge) :
    ∀ (g : gr_Graph) (c i : Nat) (e : gr_Edge), es[i]? = some e → ¬ e.in_bounds g →
      (∀ j e', j < i → es[j]? = some e' → e'.in_bounds g) →
      gr_graph_add_edges_from g c es = (c + i, add_each g (es.take i)) := by
  induction es with
  | nil => intro g c i e h; simp at h
  | cons a rest ih =>
    intro g c i e h hout hin
    cases i with
    | zero =>
      have hae : a = e := by simpa using h
      subst hae
      rw [add_edges_from_out_of_bounds g c a rest hout]
      simp [add_each]
    | succ k =>
      have ha : a.in_bounds g := hin 0 a (Nat.succ_pos k) (by simp)
      have hn := add_edge_n_verticies g a
      rw [add_edges_from_in_bounds g c a rest ha, List.take_succ_cons, add_each_cons]
      have hk : rest[k]? = some e := by simpa using h
      rw [ih (gr_graph_add_edge g a).2 (c + 1) k e hk
        (fun hc => hout ((in_bounds_congr e g _ hn).1 hc))
        (fun j e' hj hj' => (in_bounds_congr e' g _ hn).2
          (hin (j + 1) e' (Nat.succ_lt_succ hj) (by simpa using hj')))]
      congr 1
      omega

theorem add_edges_from_all (es : List gr_Edge) :
    ∀ (g : gr_Graph) (c : Nat), (∀ e ∈ es, e.in_bounds g) →
      gr_graph_add_edges_from g c es = (0, add_each g es) := by
  induction es with
  | nil => intro g c _; rfl
  | cons a rest ih =>
    intro g c hall
    have ha : a.in_bounds g := hall a (List.mem_cons_self a rest)
    have hn := add_edge_n_verticies g a
    rw [add_edges_from_in_bounds g c a rest ha, add_each_cons]
    exact ih _ (c + 1) (fun e he => (in_bounds_congr e g _ hn).2
      (hall e (List.mem_cons_of_mem a he)))

/-- C5: `gr_graph_add_edges` on the 3-vertex empty graph and the edge list
`[(0,7), (0,1)]`: the first edge is out of bounds and `gr_graph_add_edge`
rejects it, yet the call returns `0`, the value it also returns for the
list `[(0,1)]`, all of whose edges are added. -/
theorem add_edges_returns_zero_on_first_failure :
    (gr_graph_add_edge ⟨3, List.replicate 9 false⟩ (gr_edge_u 0 7)).1 = false ∧
    gr_graph_add_edges ⟨3, List.replicate 9 false⟩ [gr_edge_u 0 7, gr_edge_u 0 1]
      = (0, ⟨3, List.replicate 9 false⟩) ∧
    (gr_graph_add_edges ⟨3, List.replicate 9 false⟩ [gr_edge_u 0 1]).1 = 0 := by
  decide

/-- C6: when the first out-of-bounds edge of the list is at position `i`,
`gr_graph_add_edges` leaves the graph obtained by applying
`gr_graph_add_edge` to the edges before position `i`, in order, and to no
other edge; when no edge is out of bounds it leaves the graph obtained by
applying all edges in order. -/
theorem add_edges_stops_at_first_failure (g : gr_Graph) (es : List gr_Edge) :
    (∀ i e, es[i]? = some e → ¬ e.in_bounds g →
      (∀ j e', j < i → es[j]? = some e' → e'.in_bounds g) →
      (gr_graph_add_edges g es).2 = add_each g (es.take i)) ∧
    ((∀ e ∈ es, e.in_bounds g) → (gr_graph_add_edges g es).2 = add_each g es) := by
  constructor
  · intro i e h hout hin
    unfold gr_graph_add_edges
    rw [add_edges_from_stop es g 0 i e h hout hin]
  · intro hall
    unfold gr_graph_add_edges
    rw [add_edges_from_all es g 0 hall]

theorem add_edges_stops_at_first_failure_witness :
    (gr_graph_add_edges ⟨2, [false, false, false, false]⟩
        [gr_edge_u 0 1, gr_edge_d 1 5, gr_edge_d 1 1]).2
      = add_each ⟨2, [false, false, false, false]⟩ [gr_edge_u 0 1] ∧
    (gr_graph_add_edges ⟨2, [false, false, false, false]⟩
        [gr_edge_u 0 1, gr_edge_d 1 1]).2
      = add_each ⟨2, [false, false, false, false]⟩ [gr_edge_u 0 1, gr_edge_d 1 1] :=
  ⟨(add_edges_stops_at_first_failure ⟨2, [false, false, false, false]⟩
      [gr_edge_u 0 1, gr_edge_d 1 5, gr_edge_d 1 1]).1 1 (gr_edge_d 1 5) rfl (by decide)
      (fun j e' hj h => by
        have hj0 : j = 0 := by omega
        subst hj0
        have he : gr_edge_u 0 1 = e' := by simpa using h
        subst he
        decide),
   (add_edges_stops_at_first_failure ⟨2, [false, false, false, false]⟩
      [gr_edge_u 0 1, gr_edge_d 1 1]).2 (by decide)⟩

/-- Where the product `n * n` does not exceed `SIZE_MAX`: for `n >= 1` with
both allocations succeeding, `gr_graph_init` produces a graph with vertex
count `n` whose block has `n * n` cells and whose adjacency is `false` at
every entry. -/
theorem graph_init_no_wrap (SIZE_MAX n : Nat) (hfit : n * n ≤ SIZE_MAX) (hn : n ≥ 1) :
    ∃ g, gr_graph_init SIZE_MAX true true n = Except.ok g ∧ g.n_verticies = n ∧
      g.allocated ∧ ∀ a b, a < n → b < n → g.edges a b = false := by
  have hpos : n > 0 := hn
  have hmod : n * n % (SIZE_MAX + 1) = n * n := Nat.mod_eq_of_lt (by omega)
  refine ⟨⟨n, List.replicate (n * n) false⟩, ?_, rfl, ?_, ?_⟩
  · simp [gr_graph_init, hpos, hmod]
  · simp [gr_Graph.allocated]
  · intro a b ha hb
    have hlt := cell_index_lt ha hb
    simp [gr_Graph.edges, List.getD_eq_getElem?_getD, List.getElem?_replicate, hlt]

theorem graph_init_no_wrap_example :
    ∃ g, gr_graph_init 18446744073709551615 true true 2 = Except.ok g ∧
      g.n_verticies = 2 ∧ g.allocated ∧ ∀ a b, a < 2 → b < 2 → g.edges a b = false :=
  graph_init_no_wrap 18446744073709551615 2 (by decide) (by decide)

theorem graph_init_zero (SIZE_MAX : Nat) (raw_ok rows_ok : Bool) :
    gr_graph_init SIZE_MAX raw_ok rows_ok 0 = Except.error gr_InitError.assertion := by
  simp [gr_graph_init]

theorem graph_init_ok_eq (SIZE_MAX n : Nat) (hn : n > 0) :
    gr_graph_init SIZE_MAX true true n
      = Except.ok ⟨n, List.replicate (n * n % (SIZE_MAX + 1)) false⟩ := by
  simp [gr_graph_init, hn]

/-- C7: with a 32-bit `size_t` and `n = 65537`, and with a 64-bit `size_t`
and `n = 4294967297`, both allocations succeeding, `gr_graph_init` returns a
graph with vertex count `n` whose block has only `131073`, respectively
`8589934593`, cells, fewer than `n * n`: the product wrapped, and already
the entry `[2][0]` lies past the end of the block.  With `n = 65536`,
respectively `n = 4294967296`, the product wraps to `0` and the block has no
cell at all.  For `n = 0` the call fails on its assertion and produces no
graph. -/
theorem graph_init_wraps :
    gr_graph_init 4294967295 true true 65537
      = Except.ok ⟨65537, List.replicate 131073 false⟩ ∧
    ¬ gr_Graph.allocated ⟨65537, List.replicate 131073 false⟩ ∧
    (List.replicate 131073 false).length ≤ 65537 * 2 + 0 ∧
    gr_graph_init 18446744073709551615 true true 4294967297
      = Except.ok ⟨4294967297, List.replicate 8589934593 false⟩ ∧
    ¬ gr_Graph.allocated ⟨4294967297, List.replicate 8589934593 false⟩ ∧
    (List.replicate 8589934593 false).length ≤ 4294967297 * 2 + 0 ∧
    gr_graph_init 4294967295 true true 65536 = Except.ok ⟨65536, []⟩ ∧
    gr_graph_init 18446744073709551615 true true 4294967296
      = Except.ok ⟨4294967296, []⟩ ∧
    (∀ SIZE_MAX raw_ok rows_ok,
      gr_graph_init SIZE_MAX raw_ok rows_ok 0 = Except.error gr_InitError.assertion) := by
  refine ⟨?_, ?_, ?_, ?_, ?_, ?_, ?_, ?_, graph_init_zero⟩
  rotate_left 6
  · rw [graph_init_ok_eq 4294967295 65536 (by decide)]
    rfl
  · rw [graph_init_ok_eq 18446744073709551615 4294967296 (by decide)]
    rfl
  · rw [graph_init_ok_eq 4294967295 65537 (by decide)]
  · unfold gr_Graph.allocated
    rw [List.length_replicate]
    decide
  · rw [List.length_replicate]
    decide
  · rw [graph_init_ok_eq 18446744073709551615 4294967297 (by decide)]
  · unfold gr_Graph.allocated
    rw [List.length_replicate]
    decide
  · rw [List.length_replicate]
    decide

/-! ## Step orchestration -/

section StepTheorems

variable {F : Type} [LinearOrderedField F]

theorem step_unchecked_cur_iteration (M : MathH F) (ctx : gr_RenderContext F) :
    (gr_render_step_unchecked M ctx).cur_iteration = ctx.cur_iteration + 1 := by
  simp only [gr_render_step_unchecked]
  split <;> rfl

theorem foldl_const_eq_iterate {α β : Type} (f : α → α) (l : List β) :
    ∀ x : α, l.foldl (fun c _ => f c) x = Nat.iterate f l.length x := by
  induction l with
  | nil => intro x; rfl
  | cons b rest ih =>
    intro x
    rw [List.foldl_cons, ih (f x), List.length_cons, Function.iterate_succ_apply]

theorem step_for_eq_iterate_unchecked (M : MathH F) (ctx : gr_RenderContext F) (k : Nat) :
    gr_render_step_for M ctx k = Nat.iterate (gr_render_step_unchecked M) k ctx := by
  unfold gr_render_step_for
  rw [foldl_const_eq_iterate (gr_render_step_unchecked M) (List.range k) ctx,
    List.length_range]

theorem iterate_step_cur_iteration (M : MathH F) (k : Nat) :
    ∀ ctx : gr_RenderContext F,
      (Nat.iterate (gr_render_step_unchecked M) k ctx).cur_iteration
        = ctx.cur_iteration + k := by
  induction k with
  | zero => intro ctx; rfl
  | succ k ih =>
    intro ctx
    rw [Function.iterate_succ_apply, ih, step_unchecked_cur_iteration]
    omega

theorem step_until_eq_iterate (M : MathH F) (t : Nat) :
    ∀ (d : Nat) (ctx : gr_RenderContext F), t - ctx.cur_iteration = d →
      gr_render_step_until M ctx t = Nat.iterate (gr_render_step_unchecked M) d ctx := by
  intro d
  induction d with
  | zero =>
    intro ctx h
    rw [gr_render_step_until, if_neg (by omega)]
    rfl
  | succ d ih =>
    intro ctx h
    rw [gr_render_step_until, if_pos (by omega), Function.iterate_succ_apply]
    apply ih
    rw [step_unchecked_cur_iteration]
    omega

/-- C8: `gr_render_step` increases `cur_iteration` by exactly 1, for every
context and either force model. -/
theorem render_step_increments (M : MathH F) (ctx : gr_RenderContext F) :
    (gr_render_step M ctx).cur_iteration = ctx.cur_iteration + 1 :=
  step_unchecked_cur_iteration M ctx

/-- C9: `gr_render_step_for ctx k` is the context obtained by applying
`gr_render_step` `k` times in sequence, so `cur_iteration` grows by `k`;
with `k = 0` the context is returned as it was. -/
theorem step_for_eq_iterate (M : MathH F) (ctx : gr_RenderContext F) (k : Nat) :
    gr_render_step_for M ctx k = Nat.iterate (gr_render_step M) k ctx ∧
    (gr_render_step_for M ctx k).cur_iteration = ctx.cur_iteration + k ∧
    gr_render_step_for M ctx 0 = ctx := by
  refine ⟨step_for_eq_iterate_unchecked M ctx k, ?_, rfl⟩
  rw [step_for_eq_iterate_unchecked, iterate_step_cur_iteration]

/-- C10: `gr_render_step_until ctx t`, a total function, returns the
context unchanged when `cur_iteration >= t` and otherwise equals
`gr_render_step_for ctx (t - cur_iteration)`; its final `cur_iteration` is
`max cur_iteration t`, never below the old one. -/
theorem step_until_spec (M : MathH F) (ctx : gr_RenderContext F) (t : Nat) :
    gr_render_step_until M ctx t
      = (if ctx.cur_iteration ≥ t then ctx
         else gr_render_step_for M ctx (t - ctx.cur_iteration)) ∧
    (gr_render_step_until M ctx t).cur_iteration = max ctx.cur_iteration t ∧
    ctx.cur_iteration ≤ (gr_render_step_until M ctx t).cur_iteration := by
  have h := step_until_eq_iterate M t (t - ctx.cur_iteration) ctx rfl
  have hc : (gr_render_step_until M ctx t).cur_iteration
      = ctx.cur_iteration + (t - ctx.cur_iteration) := by
    rw [h, iterate_step_cur_iteration]
  refine ⟨?_, ?_, ?_⟩
  · by_cases hge : ctx.cur_iteration ≥ t
    · rw [if_pos hge, h, Nat.sub_eq_zero_of_le hge]
      rfl
    · rw [if_neg hge, h, step_for_eq_iterate_unchecked]
  · rw [hc]
    omega
  · rw [hc]
    omega

end StepTheorems

/-! ## Loops that write one cell per pass -/

section SetLoop

variable {α : Type}

theorem foldl_range_succ {β : Type} (step : β → Nat → β) (P : β) (n : Nat) :
    (List.range (n + 1)).foldl step P = step ((List.range n).foldl step P) n := by
  rw [List.range_succ, List.foldl_append]
  rfl

theorem set_loop_length (step : List α → Nat → List α) (f : List α → Nat → α)
    (hstep : ∀ pos n, step pos n = pos.set n (f pos n)) (P : List α) (n : Nat) :
    ((List.range n).foldl step P).length = P.length := by
  induction n with
  | zero => rfl
  | succ n ih => rw [foldl_range_succ, hstep, List.length_set, ih]

theorem set_loop_get_ge (step : List α → Nat → List α) (f : List α → Nat → α)
    (hstep : ∀ pos n, step pos n = pos.set n (f pos n)) (P : List α) (n j : Nat)
    (h : n ≤ j) : ((List.range n).foldl step P)[j]? = P[j]? := by
  induction n with
  | zero => rfl
  | succ n ih =>
    rw [foldl_range_succ, hstep, List.getElem?_set_ne (by omega), ih (by omega)]

theorem set_loop_get_lt (step : List α → Nat → List α) (f : List α → Nat → α)
    (hstep : ∀ pos n, step pos n = pos.set n (f pos n)) (P : List α) (n m j : Nat)
    (hj : j < n) (hnm : n ≤ m) :
    ((List.range m).foldl step P)[j]? = ((List.range n).foldl step P)[j]? := by
  induction m with
  | zero => omega
  | succ m ih =>
    by_cases h : n = m + 1
    · subst h; rfl
    · rw [foldl_range_succ, hstep, List.getElem?_set_ne (by omega), ih (by omega)]

theorem set_loop_get_new (step : List α → Nat → List α) (f : List α → Nat → α)
    (hstep : ∀ pos n, step pos n = pos.set n (f pos n)) (P : List α) (n : Nat)
    (hn : n < P.length) :
    ((List.range (n + 1)).foldl step P)[n]?
      = some (f ((List.range n).foldl step P) n) := by
  rw [foldl_range_succ, hstep,
    List.getElem?_set_self (by rw [set_loop_length step f hstep]; exact hn)]

theorem set_loop_prefix (step : List α → Nat → List α) (f : List α → Nat → α)
    (hstep : ∀ pos n, step pos n = pos.set n (f pos n)) (P : List α) (N n : Nat)
    (hN : N ≤ P.length) (h : n ≤ N) :
    (List.range n).foldl step P
      = ((List.range N).foldl step P).take n ++ P.drop n := by
  have hlen : (((List.range N).foldl step P).take n).length = n := by
    rw [List.length_take, set_loop_length step f hstep]
    omega
  apply List.ext_getElem?
  intro j
  by_cases hj : j < n
  · rw [List.getElem?_append_left (by omega), List.getElem?_take_of_lt hj,
      set_loop_get_lt step f hstep P n N j hj h]
  · rw [List.getElem?_append_right (by omega), hlen, List.getElem?_drop,
      set_loop_get_ge step f hstep P n j (by omega)]
    congr 1
    omega

theorem set_loop_fixed {β : Type} (step : β → Nat → β) (P : β)
    (hstep : ∀ n, step P n = P) (n : Nat) : (List.range n).foldl step P = P := by
  induction n with
  | zero => rfl
  | succ n ih => rw [foldl_range_succ, ih, hstep]

theorem set_getD_self (l : List α) (n : Nat) (d : α) : l.set n (l.getD n d) = l := by
  apply List.ext_getElem?
  intro j
  rw [List.getElem?_set]
  split
  · rename_i h
    subst h
    split
    · rename_i hl
      simp [List.getD_eq_getElem?_getD, List.getElem?_eq_getElem hl]
    · rename_i hl
      rw [List.getElem?_eq_none (by omega)]
  · rfl

end SetLoop

/-! ## The divisor of the step functions -/

section Distance

variable {F : Type} [LinearOrderedField F]

theorem gr_not0f_ne_zero (x : F) : gr_not0f x ≠ 0 := by
  unfold gr_not0f
  split
  · norm_num
  · assumption

theorem gr_eades_body_eq (M : MathH F) (graph : gr_Graph) (eades : gr_RenderMethodEades F)
    (vertex_pos : List (gr_Vec2 F)) (n : Nat) (force : gr_Vec2 F) (i : Nat) :
    gr_eades_body M graph eades vertex_pos n force i
      = gr_eades_force_add M graph eades n i force
          ((gr_step_other eades.grav_cen vertex_pos n i).x - (vertex_pos_at vertex_pos n).x)
          ((gr_step_other eades.grav_cen vertex_pos n i).y - (vertex_pos_at vertex_pos n).y)
          (gr_step_distance M (gr_step_other eades.grav_cen vertex_pos n i)
            (vertex_pos_at vertex_pos n)) := rfl

/-- C20: in both step functions the divisor `d` of every pass of the inner
loop is `gr_step_distance` of the two points; it is never zero, nor is its
square, and it is the epsilon `0.000000000001` whenever the computed
Euclidean distance is exactly `0`. -/
theorem step_divisor_ne_zero (M : MathH F) (graph : gr_Graph)
    (eades : gr_RenderMethodEades F) (fag : gr_RenderMethodFruchtgold F) (k : F)
    (vertex_pos : List (gr_Vec2 F)) (n i : Nat) (force : gr_Vec2 F) :
    (gr_eades_body M graph eades vertex_pos n force i
      = gr_eades_force_add M graph eades n i force
          ((gr_step_other eades.grav_cen vertex_pos n i).x - (vertex_pos_at vertex_pos n).x)
          ((gr_step_other eades.grav_cen vertex_pos n i).y - (vertex_pos_at vertex_pos n).y)
          (gr_step_distance M (gr_step_other eades.grav_cen vertex_pos n i)
            (vertex_pos_at vertex_pos n))) ∧
    (gr_fruchtgold_body M graph fag k vertex_pos n force i
      = gr_fruchtgold_force_add graph k n i force
          ((gr_step_other fag.grav_cen vertex_pos n i).x - (vertex_pos_at vertex_pos n).x)
          ((gr_step_other fag.grav_cen vertex_pos n i).y - (vertex_pos_at vertex_pos n).y)
          (gr_sq ((gr_step_other fag.grav_cen vertex_pos n i).x
              - (vertex_pos_at vertex_pos n).x)
            + gr_sq ((gr_step_other fag.grav_cen vertex_pos n i).y
              - (vertex_pos_at vertex_pos n).y))
          (gr_step_distance M (gr_step_other fag.grav_cen vertex_pos n i)
            (vertex_pos_at vertex_pos n))) ∧
    (∀ other self : gr_Vec2 F,
      gr_step_distance M other self ≠ 0 ∧
      gr_sq (gr_step_distance M other self) ≠ 0 ∧
      (M.sqrtf (gr_sq (other.x - self.x) + gr_sq (other.y - self.y)) = 0 →
        gr_step_distance M other self = 1 / 1000000000000)) := by
  refine ⟨rfl, rfl, fun other self => ⟨gr_not0f_ne_zero _, ?_, ?_⟩⟩
  · exact mul_ne_zero (gr_not0f_ne_zero _) (gr_not0f_ne_zero _)
  · intro h
    simp [gr_step_distance, gr_not0f, h]

theorem step_divisor_ne_zero_witness :
    gr_step_distance (F := ℝ) ⟨Real.sqrt, Real.log⟩ ⟨3, 4⟩ ⟨3, 4⟩ = 1 / 1000000000000 :=
  ((step_divisor_ne_zero (F := ℝ) ⟨Real.sqrt, Real.log⟩ ⟨1, []⟩
      ⟨2, 1, 1, 1 / 10, ⟨0, 0⟩⟩ ⟨1 / 10, 100, 1 / 10, 1 / 1000, ⟨0, 0⟩⟩ 1 [] 0 0 ⟨0, 0⟩).2.2
    ⟨3, 4⟩ ⟨3, 4⟩).2.2 (by simp [gr_sq])

end Distance

/-! ## Cooling of the Fruchterman-Reingold temperature -/

section Cooling

variable {F : Type} [LinearOrderedField F]

theorem floor_eq_max (c : F) : (if c < 0 then 0 else c) = max 0 c := by
  rcases lt_or_le c 0 with h | h
  · rw [if_pos h, max_eq_left h.le]
  · rw [if_neg (not_lt.2 h), max_eq_right h]

theorem cool_twice (T d : F) (k : Nat) (hd : 0 ≤ d) :
    max 0 (max 0 (T - (k : F) * d) - d) = max 0 (T - ((k + 1 : Nat) : F) * d) := by
  have hcast : ((k + 1 : Nat) : F) = (k : F) + 1 := by push_cast; rfl
  rw [hcast]
  rcases le_total 0 (T - (k : F) * d) with h | h
  · rw [max_eq_right h]
    congr 1
    ring
  · rw [max_eq_left h, max_eq_left (by linarith), max_eq_left (by linarith)]

theorem step_graph (M : MathH F) (ctx : gr_RenderContext F) :
    (gr_render_step_unchecked M ctx).graph = ctx.graph := by
  simp only [gr_render_step_unchecked]
  split <;> rfl

theorem step_fruchtgold_method (M : MathH F) (ctx : gr_RenderContext F)
    (f : gr_RenderMethodFruchtgold F) (hm : ctx.method = gr_RenderMethod.fruchtgold f) :
    (gr_render_step_unchecked M ctx).method
      = gr_RenderMethod.fruchtgold
          { f with cur_temp := max 0 (f.cur_temp - f.decay) } := by
  simp only [gr_render_step_unchecked, hm, gr_step_method_fruchtman_and_reingold,
    floor_eq_max]

theorem iterate_fruchtgold_method (M : MathH F) (f : gr_RenderMethodFruchtgold F)
    (hd : 0 ≤ f.decay) (ht : 0 ≤ f.cur_temp) (k : Nat) :
    ∀ ctx : gr_RenderContext F, ctx.method = gr_RenderMethod.fruchtgold f →
      (Nat.iterate (gr_render_step_unchecked M) k ctx).method
        = gr_RenderMethod.fruchtgold
            { f with cur_temp := max 0 (f.cur_temp - (k : F) * f.decay) } := by
  induction k with
  | zero =>
    intro ctx hm
    simp [hm, max_eq_right ht]
  | succ k ih =>
    intro ctx hm
    rw [Function.iterate_succ_apply', step_fruchtgold_method M _ _ (ih ctx hm)]
    simp only [cool_twice f.cur_temp f.decay k hd]

theorem fruchtgold_vertex_frozen (M : MathH F) (graph : gr_Graph)
    (f : gr_RenderMethodFruchtgold F) (k : F) (ht : f.cur_temp = 0)
    (pos : List (gr_Vec2 F)) (n : Nat) :
    gr_fruchtgold_vertex M graph f k pos n = pos := by
  simp only [gr_fruchtgold_vertex, ht, zero_mul, add_zero]
  exact set_getD_self pos n gr_vec2zero

theorem step_frozen_positions (M : MathH F) (ctx : gr_RenderContext F)
    (f : gr_RenderMethodFruchtgold F) (hm : ctx.method = gr_RenderMethod.fruchtgold f)
    (ht : f.cur_temp = 0) :
    (gr_render_step_unchecked M ctx).vertex_pos = ctx.vertex_pos := by
  simp only [gr_render_step_unchecked, hm, gr_step_method_fruchtman_and_reingold]
  exact set_loop_fixed _ _ (fun n => fruchtgold_vertex_frozen M _ f _ ht _ n) _

theorem step_frozen_method (M : MathH F) (ctx : gr_RenderContext F)
    (f : gr_RenderMethodFruchtgold F) (hm : ctx.method = gr_RenderMethod.fruchtgold f)
    (ht : f.cur_temp = 0) (hd : 0 ≤ f.decay) :
    (gr_render_step_unchecked M ctx).method = gr_RenderMethod.fruchtgold f := by
  rw [step_fruchtgold_method M ctx f hm, ht, max_eq_left (by linarith)]
  cases f
  simp only at ht
  rw [ht]

theorem iterate_frozen (M : MathH F) (f : gr_RenderMethodFruchtgold F)
    (ht : f.cur_temp = 0) (hd : 0 ≤ f.decay) (j : Nat) :
    ∀ ctx : gr_RenderContext F, ctx.method = gr_RenderMethod.fruchtgold f →
      (Nat.iterate (gr_render_step_unchecked M) j ctx).method
          = gr_RenderMethod.fruchtgold f ∧
      (Nat.iterate (gr_render_step_unchecked M) j ctx).vertex_pos = ctx.vertex_pos := by
  induction j with
  | zero => intro ctx hm; exact ⟨hm, rfl⟩
  | succ j ih =>
    intro ctx hm
    obtain ⟨h1, h2⟩ := ih ctx hm
    rw [Function.iterate_succ_apply']
    exact ⟨step_frozen_method M _ f h1 ht hd,
      (step_frozen_positions M _ f h1 ht).trans h2⟩

/-- C13: for a Fruchterman-Reingold context with `decay >= 0` and
`cur_temp >= 0`, one step leaves `cur_temp = max 0 (cur_temp - decay)` and
no other method field changed; after any number `j` of steps the next step
again maps the current `cur_temp` to `max 0 (cur_temp - decay)`, which is
not above the current value and not negative. -/
theorem fruchtgold_cooling (M : MathH F) (ctx : gr_RenderContext F)
    (f : gr_RenderMethodFruchtgold F) (hm : ctx.method = gr_RenderMethod.fruchtgold f)
    (hd : 0 ≤ f.decay) (ht : 0 ≤ f.cur_temp) :
    (gr_render_step M ctx).method
      = gr_RenderMethod.fruchtgold { f with cur_temp := max 0 (f.cur_temp - f.decay) } ∧
    ∀ j : Nat, ∃ t t1 : F,
      (gr_render_step_for M ctx j).method
        = gr_RenderMethod.fruchtgold { f with cur_temp := t } ∧
      (gr_render_step_for M ctx (j + 1)).method
        = gr_RenderMethod.fruchtgold { f with cur_temp := t1 } ∧
      t1 = max 0 (t - f.decay) ∧ t1 ≤ t ∧ 0 ≤ t1 ∧ 0 ≤ t := by
  refine ⟨step_fruchtgold_method M ctx f hm, fun j => ?_⟩
  refine ⟨max 0 (f.cur_temp - (j : F) * f.decay),
    max 0 (f.cur_temp - ((j + 1 : Nat) : F) * f.decay), ?_, ?_, ?_, ?_, ?_, ?_⟩
  · rw [step_for_eq_iterate_unchecked]
    exact iterate_fruchtgold_method M f hd ht j ctx hm
  · rw [step_for_eq_iterate_unchecked]
    exact iterate_fruchtgold_method M f hd ht (j + 1) ctx hm
  · exact (cool_twice f.cur_temp f.decay j hd).symm
  · rw [← cool_twice f.cur_temp f.decay j hd]
    exact max_le (le_max_left _ _) (by linarith [le_max_right 0 (f.cur_temp - (j : F) * f.decay)])
  · exact le_max_left _ _
  · exact le_max_left _ _

theorem fruchtgold_cooling_witness :
    (gr_render_step (F := ℝ) ⟨Real.sqrt, Real.log⟩
        ⟨⟨1, [false]⟩, gr_RenderMethod.fruchtgold ⟨1, 1, 3, 2, ⟨0, 0⟩⟩, false, [⟨1, 1⟩], 0⟩).method
      = gr_RenderMethod.fruchtgold ⟨1, 1, max 0 (3 - 2), 2, ⟨0, 0⟩⟩ :=
  (fruchtgold_cooling (F := ℝ) ⟨Real.sqrt, Real.log⟩
    ⟨⟨1, [false]⟩, gr_RenderMethod.fruchtgold ⟨1, 1, 3, 2, ⟨0, 0⟩⟩, false, [⟨1, 1⟩], 0⟩
    ⟨1, 1, 3, 2, ⟨0, 0⟩⟩ rfl (by norm_num) (by norm_num)).1

/-- C14: for a Fruchterman-Reingold context with `cur_temp = 0` and a
non-zero ideal length `k = c * sqrtf (area / n_verticies)`, one step leaves
every vertex position unchanged and increases `cur_iteration` by 1; with
`decay >= 0` the same holds for the step taken after any number of steps,
and the positions after any number of steps are the initial ones. -/
theorem fruchtgold_zero_temp_fixed (M : MathH F) (ctx : gr_RenderContext F)
    (f : gr_RenderMethodFruchtgold F) (hm : ctx.method = gr_RenderMethod.fruchtgold f)
    (ht : f.cur_temp = 0)
    (_hk : f.c * M.sqrtf (f.area / (ctx.graph.n_verticies : F)) ≠ 0) :
    (gr_render_step M ctx).vertex_pos = ctx.vertex_pos ∧
    (gr_render_step M ctx).cur_iteration = ctx.cur_iteration + 1 ∧
    (0 ≤ f.decay → ∀ j : Nat,
      (gr_render_step M (gr_render_step_for M ctx j)).vertex_pos
        = (gr_render_step_for M ctx j).vertex_pos ∧
      (gr_render_step M (gr_render_step_for M ctx j)).cur_iteration
        = (gr_render_step_for M ctx j).cur_iteration + 1 ∧
      (gr_render_step_for M ctx j).vertex_pos = ctx.vertex_pos) := by
  refine ⟨step_frozen_positions M ctx f hm ht, step_unchecked_cur_iteration M ctx, ?_⟩
  intro hd j
  rw [step_for_eq_iterate_unchecked]
  obtain ⟨h1, h2⟩ := iterate_frozen M f ht hd j ctx hm
  exact ⟨step_frozen_positions M _ f h1 ht, step_unchecked_cur_iteration M _, h2⟩

theorem fruchtgold_zero_temp_fixed_witness :
    (gr_render_step (F := ℝ) ⟨Real.sqrt, Real.log⟩
        ⟨⟨1, [false]⟩, gr_RenderMethod.fruchtgold ⟨1, 1, 0, 1, ⟨0, 0⟩⟩, false,
          [⟨3, 4⟩], 7⟩).vertex_pos = [⟨3, 4⟩] ∧
    (gr_render_step (F := ℝ) ⟨Real.sqrt, Real.log⟩
        ⟨⟨1, [false]⟩, gr_RenderMethod.fruchtgold ⟨1, 1, 0, 1, ⟨0, 0⟩⟩, false,
          [⟨3, 4⟩], 7⟩).cur_iteration = 7 + 1 :=
  ⟨(fruchtgold_zero_temp_fixed (F := ℝ) ⟨Real.sqrt, Real.log⟩
      ⟨⟨1, [false]⟩, gr_RenderMethod.fruchtgold ⟨1, 1, 0, 1, ⟨0, 0⟩⟩, false, [⟨3, 4⟩], 7⟩
      ⟨1, 1, 0, 1, ⟨0, 0⟩⟩ rfl rfl (by simp)).1,
   (fruchtgold_zero_temp_fixed (F := ℝ) ⟨Real.sqrt, Real.log⟩
      ⟨⟨1, [false]⟩, gr_RenderMethod.fruchtgold ⟨1, 1, 0, 1, ⟨0, 0⟩⟩, false, [⟨3, 4⟩], 7⟩
      ⟨1, 1, 0, 1, ⟨0, 0⟩⟩ rfl rfl (by simp)).2.1⟩

/-- C15: for a context whose method is the default Fruchterman-Reingold
method of `gr_method_create`, `cur_temp` is strictly positive after every
number of steps below 100 and is `0` after 100 steps and after every later
number of steps, and from 100 steps on a further step leaves the positions
unchanged. -/
theorem default_fruchtgold_cooling (M : MathH F) (ctx : gr_RenderContext F)
    (hm : ctx.method
      = gr_method_create gr_RenderMethodKind.GR_RM_Fruchterman_and_Reingold) :
    (∀ j : Nat, j < 100 → ∃ f, (gr_render_step_for M ctx j).method
        = gr_RenderMethod.fruchtgold f ∧ 0 < f.cur_temp) ∧
    (∀ j : Nat, 100 ≤ j → ∃ f, (gr_render_step_for M ctx j).method
        = gr_RenderMethod.fruchtgold f ∧ f.cur_temp = 0) ∧
    (∀ j : Nat, 100 ≤ j →
      (gr_render_step_for M ctx (j + 1)).vertex_pos
        = (gr_render_step_for M ctx j).vertex_pos) := by
  have hform : ∀ j : Nat, (gr_render_step_for M ctx j).method
      = gr_RenderMethod.fruchtgold
          { c := 1 / 10, area := 100,
            cur_temp := max 0 (1 / 10 - (j : F) * (1 / 10 / ((100 : Nat) : F))),
            decay := 1 / 10 / ((100 : Nat) : F), grav_cen := gr_vec2zero } := by
    intro j
    rw [step_for_eq_iterate_unchecked]
    exact iterate_fruchtgold_method M
      { c := 1 / 10, area := 100, cur_temp := 1 / 10,
        decay := 1 / 10 / ((100 : Nat) : F), grav_cen := gr_vec2zero }
      (by positivity) (by positivity) j ctx hm
  have hzero : ∀ j : Nat, 100 ≤ j →
      max (0 : F) (1 / 10 - (j : F) * (1 / 10 / ((100 : Nat) : F))) = 0 := by
    intro j hj
    have hc : (100 : F) ≤ (j : F) := by exact_mod_cast hj
    apply max_eq_left
    have : (1 : F) / 10 / ((100 : Nat) : F) = 1 / 1000 := by norm_num
    rw [this]
    linarith
  refine ⟨fun j hj => ⟨_, hform j, ?_⟩, fun j hj => ⟨_, hform j, hzero j hj⟩, fun j hj => ?_⟩
  · have hc : (j : F) < 100 := by exact_mod_cast hj
    apply lt_max_of_lt_right
    have : (1 : F) / 10 / ((100 : Nat) : F) = 1 / 1000 := by norm_num
    simp only [this]
    linarith
  · rw [step_for_eq_iterate_unchecked, step_for_eq_iterate_unchecked,
      Function.iterate_succ_apply']
    rw [← step_for_eq_iterate_unchecked]
    exact step_frozen_positions M _ _ (hform j) (hzero j hj)

theorem default_fruchtgold_cooling_witness :
    ∃ f, (gr_render_step_for (F := ℝ) ⟨Real.sqrt, Real.log⟩
        ⟨⟨1, [false]⟩,
          gr_method_create gr_RenderMethodKind.GR_RM_Fruchterman_and_Reingold,
          false, [⟨1, 1⟩], 0⟩ 100).method
      = gr_RenderMethod.fruchtgold f ∧ f.cur_temp = 0 :=
  (default_fruchtgold_cooling (F := ℝ) ⟨Real.sqrt, Real.log⟩
    ⟨⟨1, [false]⟩, gr_method_create gr_RenderMethodKind.GR_RM_Fruchterman_and_Reingold,
      false, [⟨1, 1⟩], 0⟩ rfl).2.1 100 (le_refl 100)

end Cooling

/-! ## Context creation -/

section FloatRounding

theorem rhe_bounds (x : ℚ) :
    ⌊x⌋ ≤ round_half_even x ∧ round_half_even x ≤ ⌊x⌋ + 1 := by
  unfold round_half_even
  split_ifs <;> constructor <;> omega

theorem rhe_mono (a b : ℚ) (h : a ≤ b) : round_half_even a ≤ round_half_even b := by
  have hf : ⌊a⌋ ≤ ⌊b⌋ := Int.floor_mono h
  rcases lt_or_eq_of_le hf with hlt | heq
  · have h1 := (rhe_bounds a).2
    have h2 := (rhe_bounds b).1
    omega
  · unfold round_half_even
    rw [← heq]
    split_ifs <;> first | omega | (exfalso; linarith)

theorem rhe_int (n : ℤ) : round_half_even (n : ℚ) = n := by
  unfold round_half_even
  simp

theorem rhe_le_of_le (x : ℚ) (n : ℤ) (h : x ≤ (n : ℚ)) : round_half_even x ≤ n := by
  have := rhe_mono x n h
  rwa [rhe_int] at this

theorem le_rhe_of_le (x : ℚ) (n : ℤ) (h : (n : ℚ) ≤ x) : n ≤ round_half_even x := by
  have := rhe_mono n x h
  rwa [rhe_int] at this

theorem rhe_eq_of_near (x : ℚ) (n : ℤ) (h1 : (n : ℚ) - 1 / 2 < x)
    (h2 : x < (n : ℚ) + 1 / 2) : round_half_even x = n := by
  have hf1 : (⌊x⌋ : ℚ) ≤ x := Int.floor_le x
  have hf2 : x < (⌊x⌋ : ℚ) + 1 := Int.lt_floor_add_one x
  have hle : ⌊x⌋ < n + 1 := by
    have : (⌊x⌋ : ℚ) < ((n + 1 : ℤ) : ℚ) := by push_cast; linarith
    exact_mod_cast this
  have hge : n - 2 < ⌊x⌋ := by
    have : ((n - 2 : ℤ) : ℚ) < (⌊x⌋ : ℚ) := by push_cast; linarith
    exact_mod_cast this
  have hcases : ⌊x⌋ = n ∨ ⌊x⌋ = n - 1 := by omega
  unfold round_half_even
  rcases hcases with hc | hc
  · rw [hc, if_pos (by linarith)]
  · have hq : (⌊x⌋ : ℚ) = (n : ℚ) - 1 := by rw [hc]; push_cast; ring
    rw [if_neg (by rw [hq]; linarith), if_pos (by rw [hq]; linarith), hc]
    ring

theorem float_ulp_pos (x : ℚ) : 0 < float_ulp x := by
  unfold float_ulp
  positivity

theorem float_round_nonneg (x : ℚ) (hx : 0 ≤ x) : 0 ≤ float_round x := by
  unfold float_round
  have hq : ((0 : ℤ) : ℚ) ≤ x / float_ulp x := by
    simpa using div_nonneg hx (float_ulp_pos x).le
  have h := le_rhe_of_le _ 0 hq
  have h2 : (0 : ℚ) ≤ (round_half_even (x / float_ulp x) : ℚ) := by exact_mod_cast h
  exact mul_nonneg h2 (float_ulp_pos x).le

theorem float_round_zero : float_round 0 = 0 := by
  unfold float_round
  have h : round_half_even (0 / float_ulp 0) = 0 := by
    rw [zero_div]
    exact_mod_cast rhe_int 0
  rw [h]
  simp

theorem two_zpow_upper (e : ℤ) : (2 : ℚ) ^ (e + 1) = 16777216 * (2 : ℚ) ^ (e - 23) := by
  rw [show e + 1 = 24 + (e - 23) by ring, zpow_add₀ (two_ne_zero)]
  norm_num

theorem two_zpow_lower (e : ℤ) : (2 : ℚ) ^ e = 8388608 * (2 : ℚ) ^ (e - 23) := by
  have h : (2 : ℚ) ^ e = (2 : ℚ) ^ (23 + (e - 23)) := by
    congr 1
    ring
  rw [h, zpow_add₀ (two_ne_zero)]
  norm_num

/-- A positive `x` rounds to at most the power of two above its binade. -/
theorem float_round_le_pow (x : ℚ) (hx : 0 < x) :
    float_round x ≤ (2 : ℚ) ^ (max (Int.log 2 |x|) (-126) + 1) := by
  have hu := float_ulp_pos x
  have hlt : x < (2 : ℚ) ^ (Int.log 2 x + 1) := by
    have := Int.lt_zpow_succ_log_self (b := 2) (by norm_num) x
    simpa using this
  have hmono : (2 : ℚ) ^ (Int.log 2 x + 1) ≤ (2 : ℚ) ^ (max (Int.log 2 |x|) (-126) + 1) := by
    apply zpow_le_zpow_right₀ (by norm_num)
    rw [abs_of_pos hx]
    have := le_max_left (Int.log 2 x) (-126)
    omega
  have hx2 : x ≤ (2 : ℚ) ^ (max (Int.log 2 |x|) (-126) + 1) := le_trans hlt.le hmono
  rw [two_zpow_upper] at hx2 ⊢
  have hq : x / float_ulp x ≤ ((16777216 : ℤ) : ℚ) := by
    rw [div_le_iff₀ hu]
    unfold float_ulp
    push_cast
    exact hx2
  have h := rhe_le_of_le _ 16777216 hq
  have h2 : (round_half_even (x / float_ulp x) : ℚ) ≤ 16777216 := by exact_mod_cast h
  unfold float_round
  have h3 := mul_le_mul_of_nonneg_right h2 hu.le
  unfold float_ulp at h3 ⊢
  exact h3

/-- A positive `x` of a normal binade rounds to at least the power of two
below it. -/
theorem pow_le_float_round (x : ℚ) (hx : 0 < x) (hnorm : -126 ≤ Int.log 2 x) :
    (2 : ℚ) ^ (Int.log 2 x) ≤ float_round x := by
  have hu := float_ulp_pos x
  have he : max (Int.log 2 |x|) (-126) = Int.log 2 x := by
    rw [abs_of_pos hx]
    exact max_eq_left hnorm
  have hle : (2 : ℚ) ^ (Int.log 2 x) ≤ x := by
    have := Int.zpow_log_le_self (b := 2) (r := x) (by norm_num) hx
    simpa using this
  have hulp : float_ulp x = (2 : ℚ) ^ (Int.log 2 x - 23) := by
    unfold float_ulp
    rw [he]
  rw [two_zpow_lower] at hle ⊢
  have hq : ((8388608 : ℤ) : ℚ) ≤ x / float_ulp x := by
    rw [le_div_iff₀ hu, hulp]
    push_cast
    exact hle
  have h := le_rhe_of_le _ 8388608 hq
  have h2 : (8388608 : ℚ) ≤ (round_half_even (x / float_ulp x) : ℚ) := by exact_mod_cast h
  unfold float_round
  have h3 := mul_le_mul_of_nonneg_right h2 hu.le
  rw [hulp] at h3 ⊢
  exact h3

/-- Rounding to `float` is monotone on the non-negative numbers. -/
theorem float_round_mono (x y : ℚ) (hx : 0 ≤ x) (hxy : x ≤ y) :
    float_round x ≤ float_round y := by
  rcases eq_or_lt_of_le hx with h0 | hpos
  · rw [← h0, float_round_zero]
    exact float_round_nonneg y (le_trans hx hxy)
  · have hy : 0 < y := lt_of_lt_of_le hpos hxy
    have hlog : Int.log 2 x ≤ Int.log 2 y := Int.log_mono_right hpos hxy
    have hexp : max (Int.log 2 |x|) (-126) ≤ max (Int.log 2 |y|) (-126) := by
      rw [abs_of_pos hpos, abs_of_pos hy]
      exact max_le_max hlog (le_refl _)
    rcases eq_or_lt_of_le hexp with heq | hlt
    · have hu : float_ulp x = float_ulp y := by
        unfold float_ulp
        rw [heq]
      unfold float_round
      rw [hu]
      have hq : x / float_ulp y ≤ y / float_ulp y :=
        div_le_div_of_nonneg_right hxy (float_ulp_pos y).le
      have h := rhe_mono _ _ hq
      have h2 : (round_half_even (x / float_ulp y) : ℚ)
          ≤ (round_half_even (y / float_ulp y) : ℚ) := by exact_mod_cast h
      exact mul_le_mul_of_nonneg_right h2 (float_ulp_pos y).le
    · have hynorm : -126 ≤ Int.log 2 y := by
        rw [abs_of_pos hpos, abs_of_pos hy] at hlt
        by_contra hcon
        have hmax : max (Int.log 2 y) (-126) = -126 := max_eq_right (by omega)
        rw [hmax] at hlt
        have := le_max_right (Int.log 2 x) (-126)
        omega
      have hey : max (Int.log 2 |y|) (-126) = Int.log 2 y := by
        rw [abs_of_pos hy]
        exact max_eq_left hynorm
      have h1 := float_round_le_pow x hpos
      have h2 := pow_le_float_round y hy hynorm
      have h3 : (2 : ℚ) ^ (max (Int.log 2 |x|) (-126) + 1) ≤ (2 : ℚ) ^ (Int.log 2 y) := by
        apply zpow_le_zpow_right₀ (by norm_num)
        rw [hey] at hlt
        omega
      exact le_trans h1 (le_trans h3 h2)

theorem float_round_one : float_round 1 = 1 := by
  have hu : float_ulp 1 = 1 / 8388608 := by
    unfold float_ulp
    rw [abs_one, Int.log_one_right]
    norm_num
  unfold float_round
  rw [hu]
  have h : ((1 : ℚ) / (1 / 8388608)) = ((8388608 : ℤ) : ℚ) := by norm_num
  rw [h, rhe_int]
  norm_num

/-- The value of `float_round` at a positive `x` of the normal binade `e`
whose scaled value `x / 2 ^ (e - 23)` is nearer to the integer `n` than to
any other. -/
theorem float_round_eval (x : ℚ) (e n : ℤ) (hx : 0 < x) (he : -126 ≤ e)
    (hlo : (2 : ℚ) ^ e ≤ x) (hhi : x < (2 : ℚ) ^ (e + 1))
    (h1 : (n : ℚ) - 1 / 2 < x / (2 : ℚ) ^ (e - 23))
    (h2 : x / (2 : ℚ) ^ (e - 23) < (n : ℚ) + 1 / 2) :
    float_round x = (n : ℚ) * (2 : ℚ) ^ (e - 23) := by
  have hle : e ≤ Int.log 2 x := by
    apply (Int.zpow_le_iff_le_log (b := 2) (by norm_num) hx).1
    simpa using hlo
  have hlt : Int.log 2 x < e + 1 := by
    apply (Int.lt_zpow_iff_log_lt (b := 2) (by norm_num) hx).1
    simpa using hhi
  have hlog : Int.log 2 x = e := by omega
  have hulp : float_ulp x = (2 : ℚ) ^ (e - 23) := by
    unfold float_ulp
    rw [abs_of_pos hx, hlog, max_eq_left he]
  unfold float_round
  rw [hulp, rhe_eq_of_near _ n h1 h2]

theorem float_round_rand_max : float_round 2147483647 = 2147483648 := by
  rw [float_round_eval 2147483647 30 16777216 (by norm_num) (by norm_num) (by norm_num)
    (by norm_num) (by norm_num) (by norm_num)]
  norm_num

theorem float_round_below_rand_max : float_round 2147483646 = 2147483648 := by
  rw [float_round_eval 2147483646 30 16777216 (by norm_num) (by norm_num) (by norm_num)
    (by norm_num) (by norm_num) (by norm_num)]
  norm_num

theorem float_round_small_rand_max : float_round 32767 = 32767 := by
  rw [float_round_eval 32767 14 16776704 (by norm_num) (by norm_num) (by norm_num)
    (by norm_num) (by norm_num) (by norm_num)]
  norm_num

theorem binary32_of_int_eq (n : Nat) : binary32.of_int n = float_round (n : ℚ) := rfl

theorem binary32_round_eq (x : ℚ) : binary32.round x = float_round x := rfl

/-- With `RAND_MAX = 2^31 - 1`, the value `RAND_MAX - 1` of `rand()` gives
exactly `1`: both casts are `2^31`. -/
theorem randf_below_rand_max : gr_randf binary32 2147483647 2147483646 0 1 = 1 := by
  unfold gr_randf
  have ha : binary32.of_int 2147483646 = 2147483648 := by
    rw [binary32_of_int_eq, show ((2147483646 : ℕ) : ℚ) = 2147483646 by norm_num]
    exact float_round_below_rand_max
  have hb : binary32.of_int 2147483647 = 2147483648 := by
    rw [binary32_of_int_eq, show ((2147483647 : ℕ) : ℚ) = 2147483647 by norm_num]
    exact float_round_rand_max
  rw [ha, hb, binary32_round_eq, binary32_round_eq, binary32_round_eq]
  have hq : (2147483648 : ℚ) / 2147483648 = 1 := by norm_num
  have hp : (1 : ℚ) * (1 - 0) = 1 := by norm_num
  have hs : (0 : ℚ) + 1 = 1 := by norm_num
  rw [hq, float_round_one, hp, float_round_one, hs, float_round_one]

/-- With `RAND_MAX = 32767`, the value `RAND_MAX` of `rand()` gives `1`. -/
theorem randf_small_rand_max : gr_randf binary32 32767 32767 0 1 = 1 := by
  unfold gr_randf
  have ha : binary32.of_int 32767 = 32767 := by
    rw [binary32_of_int_eq, show ((32767 : ℕ) : ℚ) = 32767 by norm_num]
    exact float_round_small_rand_max
  rw [ha, binary32_round_eq, binary32_round_eq, binary32_round_eq]
  have hq : (32767 : ℚ) / 32767 = 1 := by norm_num
  have hp : (1 : ℚ) * (1 - 0) = 1 := by norm_num
  have hs : (0 : ℚ) + 1 = 1 := by norm_num
  rw [hq, float_round_one, hp, float_round_one, hs, float_round_one]

theorem binary32_of_int_mono (a b : Nat) (h : a ≤ b) :
    binary32.of_int a ≤ binary32.of_int b :=
  float_round_mono a b (Nat.cast_nonneg a) (Nat.cast_le.2 h)

theorem binary32_of_int_pos (n : Nat) (h : 0 < n) : 0 < binary32.of_int n := by
  have h1 : (1 : ℚ) ≤ (n : ℚ) := by exact_mod_cast h
  have h2 := float_round_mono 1 n zero_le_one h1
  rw [float_round_one] at h2
  exact lt_of_lt_of_le zero_lt_one h2

theorem binary32_of_int_zero : (0 : ℚ) ≤ binary32.of_int 0 := by
  have h : binary32.of_int 0 = float_round 0 := by
    simp [binary32]
  rw [h, float_round_zero]

end FloatRounding

section CreateTheorems

variable {F : Type} [LinearOrderedField F]

theorem ctx_create_body_eq (A : FloatConv F) (RAND_MAX : Nat) (rand : Nat → Nat) :
    ∀ (pos : List (gr_Vec2 F)) (i : Nat),
      gr_ctx_create_body A RAND_MAX rand pos i
        = pos.set i
            ((fun (_ : List (gr_Vec2 F)) (j : Nat) =>
              ({ x := gr_randf A RAND_MAX (rand (2 * j)) 0 1,
                 y := gr_randf A RAND_MAX (rand (2 * j + 1)) 0 1 } : gr_Vec2 F)) pos i) :=
  fun _ _ => rfl

theorem ctx_create_get (A : FloatConv F) (RAND_MAX : Nat) (rand : Nat → Nat)
    (graph : gr_Graph) (method : gr_RenderMethod F) (i : Nat)
    (hi : i < graph.n_verticies) :
    vertex_pos_at (gr_render_ctx_create_ex A RAND_MAX rand graph method true).vertex_pos i
      = { x := gr_randf A RAND_MAX (rand (2 * i)) 0 1,
          y := gr_randf A RAND_MAX (rand (2 * i + 1)) 0 1 } := by
  have hlen : i < (List.replicate graph.n_verticies (gr_vec2zero : gr_Vec2 F)).length := by
    simpa using hi
  have h1 := set_loop_get_lt _ _ (ctx_create_body_eq (F := F) A RAND_MAX rand)
    (List.replicate graph.n_verticies gr_vec2zero) (i + 1) graph.n_verticies i
    (Nat.lt_succ_self i) hi
  have h2 := set_loop_get_new _ _ (ctx_create_body_eq (F := F) A RAND_MAX rand)
    (List.replicate graph.n_verticies gr_vec2zero) i hlen
  simp only [gr_render_ctx_create_ex, if_true, vertex_pos_at, List.getD_eq_getElem?_getD,
    h1, h2, Option.getD_some]

/-- A rounding that is monotone on the non-negative numbers and exact at
`0` and `1` keeps the interval `[0, 1]`. -/
theorem round_unit (A : FloatConv F)
    (hround : ∀ x y, 0 ≤ x → x ≤ y → A.round x ≤ A.round y)
    (h0 : A.round 0 = 0) (h1 : A.round 1 = 1) (x : F) (hx0 : 0 ≤ x) (hx1 : x ≤ 1) :
    0 ≤ A.round x ∧ A.round x ≤ 1 := by
  constructor
  · have := hround 0 x (le_refl 0) hx0
    rwa [h0] at this
  · have := hround x 1 hx0 hx1
    rwa [h1] at this

theorem gr_randf_unit (A : FloatConv F) (RAND_MAX r : Nat)
    (hround : ∀ x y, 0 ≤ x → x ≤ y → A.round x ≤ A.round y)
    (h0 : A.round 0 = 0) (h1 : A.round 1 = 1)
    (hint : ∀ a b : Nat, a ≤ b → A.of_int a ≤ A.of_int b)
    (hint0 : 0 ≤ A.of_int 0) (hpos : 0 < A.of_int RAND_MAX) (hr : r ≤ RAND_MAX) :
    0 ≤ gr_randf A RAND_MAX r 0 1 ∧ gr_randf A RAND_MAX r 0 1 ≤ 1 := by
  have hr0 : 0 ≤ A.of_int r := le_trans hint0 (hint 0 r (Nat.zero_le r))
  have hq0 : 0 ≤ A.of_int r / A.of_int RAND_MAX := div_nonneg hr0 hpos.le
  have hq1 : A.of_int r / A.of_int RAND_MAX ≤ 1 := (div_le_one hpos).2 (hint r RAND_MAX hr)
  have hq := round_unit A hround h0 h1 _ hq0 hq1
  have hp : A.round (A.of_int r / A.of_int RAND_MAX) * (1 - 0)
      = A.round (A.of_int r / A.of_int RAND_MAX) := by ring
  have hm := round_unit A hround h0 h1 _ hq.1 hq.2
  have hs : (0 : F) + A.round (A.round (A.of_int r / A.of_int RAND_MAX))
      = A.round (A.round (A.of_int r / A.of_int RAND_MAX)) := by ring
  unfold gr_randf
  rw [hp, hs]
  exact round_unit A hround h0 h1 _ hm.1 hm.2

theorem ctx_create_single (A : FloatConv F) (RAND_MAX : Nat) (rand : Nat → Nat)
    (method : gr_RenderMethod F) :
    (gr_render_ctx_create_ex A RAND_MAX rand ⟨1, [false]⟩ method true).vertex_pos
      = [⟨gr_randf A RAND_MAX (rand 0) 0 1, gr_randf A RAND_MAX (rand 1) 0 1⟩] := by
  simp [gr_render_ctx_create_ex, List.range_succ, gr_ctx_create_body, gr_vec2zero]

/-- C16, as stated, fails: with IEEE single precision, `RAND_MAX = 2^31 - 1`
and `rand()` returning `RAND_MAX - 1`, a value in `0..RAND_MAX`, both casts
give `2^31` and `gr_render_ctx_create_ex` on a one-vertex graph yields the
position `(1, 1)`, whose coordinates are not below 1; the same position
results with `RAND_MAX = 32767` and `rand()` returning `RAND_MAX`. -/
theorem ctx_create_reaches_one :
    (∀ k : Nat, (fun _ : Nat => 2147483646) k ≤ 2147483647) ∧
    (gr_render_ctx_create_ex binary32 2147483647 (fun _ => 2147483646) ⟨1, [false]⟩
        (gr_method_create gr_RenderMethodKind.GR_RM_Eades) true).vertex_pos
      = [⟨1, 1⟩] ∧
    ¬ (∀ p ∈ (gr_render_ctx_create_ex binary32 2147483647 (fun _ => 2147483646)
        ⟨1, [false]⟩ (gr_method_create gr_RenderMethodKind.GR_RM_Eades) true).vertex_pos,
      0 ≤ p.x ∧ p.x < 1 ∧ 0 ≤ p.y ∧ p.y < 1) ∧
    (gr_render_ctx_create_ex binary32 32767 (fun _ => 32767) ⟨1, [false]⟩
        (gr_method_create gr_RenderMethodKind.GR_RM_Eades) true).vertex_pos
      = [⟨1, 1⟩] := by
  have hpos : (gr_render_ctx_create_ex binary32 2147483647 (fun _ => 2147483646)
        ⟨1, [false]⟩ (gr_method_create gr_RenderMethodKind.GR_RM_Eades) true).vertex_pos
      = [⟨1, 1⟩] := by
    rw [ctx_create_single, randf_below_rand_max]
  refine ⟨fun _ => by norm_num, hpos, ?_, ?_⟩
  · rw [hpos]
    intro h
    have := (h ⟨1, 1⟩ (List.mem_singleton_self _)).2.1
    exact absurd this (lt_irrefl _)
  · rw [ctx_create_single, randf_small_rand_max]

/-- C16, amended: for every graph and every sequence of `rand()` values in
`0..RAND_MAX`, `gr_render_ctx_create_ex` with `init_positions = true`
yields a context with `cur_iteration = 0` and exactly `n_verticies`
positions, each coordinate of which lies in the closed interval `[0, 1]`.
The `float` conversions are any that are monotone, exact at `0` and `1` and
positive at `RAND_MAX`, as those of IEEE arithmetic are. -/
theorem ctx_create_positions (A : FloatConv F) (RAND_MAX : Nat) (rand : Nat → Nat)
    (graph : gr_Graph) (method : gr_RenderMethod F)
    (hround : ∀ x y, 0 ≤ x → x ≤ y → A.round x ≤ A.round y)
    (h0 : A.round 0 = 0) (h1 : A.round 1 = 1)
    (hint : ∀ a b : Nat, a ≤ b → A.of_int a ≤ A.of_int b)
    (hint0 : 0 ≤ A.of_int 0) (hpos : 0 < A.of_int RAND_MAX)
    (hr : ∀ k, rand k ≤ RAND_MAX) :
    (gr_render_ctx_create_ex A RAND_MAX rand graph method true).cur_iteration = 0 ∧
    (gr_render_ctx_create_ex A RAND_MAX rand graph method true).vertex_pos.length
      = graph.n_verticies ∧
    (∀ i, i < graph.n_verticies →
      0 ≤ (vertex_pos_at
        (gr_render_ctx_create_ex A RAND_MAX rand graph method true).vertex_pos i).x ∧
      (vertex_pos_at
        (gr_render_ctx_create_ex A RAND_MAX rand graph method true).vertex_pos i).x ≤ 1 ∧
      0 ≤ (vertex_pos_at
        (gr_render_ctx_create_ex A RAND_MAX rand graph method true).vertex_pos i).y ∧
      (vertex_pos_at
        (gr_render_ctx_create_ex A RAND_MAX rand graph method true).vertex_pos i).y ≤ 1) := by
  refine ⟨rfl, ?_, ?_⟩
  · simp only [gr_render_ctx_create_ex, if_true]
    rw [set_loop_length _ _ (ctx_create_body_eq (F := F) A RAND_MAX rand)]
    simp
  · intro i hi
    rw [ctx_create_get A RAND_MAX rand graph method i hi]
    have hx := gr_randf_unit A RAND_MAX (rand (2 * i)) hround h0 h1 hint hint0 hpos (hr _)
    have hy := gr_randf_unit A RAND_MAX (rand (2 * i + 1)) hround h0 h1 hint hint0 hpos
      (hr _)
    exact ⟨hx.1, hx.2, hy.1, hy.2⟩

theorem ctx_create_positions_witness :
    (gr_render_ctx_create_ex binary32 2147483647 (fun k => k % 2147483648)
        ⟨2, [false, false, false, false]⟩
        (gr_method_create gr_RenderMethodKind.GR_RM_Eades) true).cur_iteration = 0 ∧
    (gr_render_ctx_create_ex binary32 2147483647 (fun k => k % 2147483648)
        ⟨2, [false, false, false, false]⟩
        (gr_method_create gr_RenderMethodKind.GR_RM_Eades) true).vertex_pos.length = 2 :=
  ⟨(ctx_create_positions binary32 2147483647 (fun k => k % 2147483648)
      ⟨2, [false, false, false, false]⟩
      (gr_method_create gr_RenderMethodKind.GR_RM_Eades)
      float_round_mono float_round_zero float_round_one binary32_of_int_mono
      binary32_of_int_zero (binary32_of_int_pos 2147483647 (by decide))
      (fun k => Nat.le_of_lt_succ (Nat.mod_lt k (by decide)))).1,
   (ctx_create_positions binary32 2147483647 (fun k => k % 2147483648)
      ⟨2, [false, false, false, false]⟩
      (gr_method_create gr_RenderMethodKind.GR_RM_Eades)
      float_round_mono float_round_zero float_round_one binary32_of_int_mono
      binary32_of_int_zero (binary32_of_int_pos 2147483647 (by decide))
      (fun k => Nat.le_of_lt_succ (Nat.mod_lt k (by decide)))).2.1⟩

end CreateTheorems

/-! ## Normalization -/

section NormalizeTheorems

variable {F : Type} [LinearOrderedField F]

theorem scan_body_fst_x (pos : List (gr_Vec2 F)) (acc : gr_Vec2 F × gr_Vec2 F) (i : Nat) :
    (gr_normalize_scan_body pos acc i).1.x = min acc.1.x (vertex_pos_at pos i).x := by
  simp only [gr_normalize_scan_body]
  rcases lt_or_le (vertex_pos_at pos i).x acc.1.x with h | h
  · rw [if_pos h, min_eq_right h.le]
    split <;> rfl
  · rw [if_neg (not_lt.2 h), min_eq_left h]
    split <;> rfl

theorem scan_body_fst_y (pos : List (gr_Vec2 F)) (acc : gr_Vec2 F × gr_Vec2 F) (i : Nat) :
    (gr_normalize_scan_body pos acc i).1.y = min acc.1.y (vertex_pos_at pos i).y := by
  simp only [gr_normalize_scan_body]
  have hy : ∀ m : gr_Vec2 F, m.y = acc.1.y →
      (if (vertex_pos_at pos i).y < m.y then
          ({ m with y := (vertex_pos_at pos i).y } : gr_Vec2 F) else m).y
        = min acc.1.y (vertex_pos_at pos i).y := by
    intro m hm
    rcases lt_or_le (vertex_pos_at pos i).y acc.1.y with h | h
    · rw [if_pos (by rw [hm]; exact h), min_eq_right h.le]
    · rw [if_neg (by rw [hm]; exact not_lt.2 h), min_eq_left h, hm]
  apply hy
  split <;> rfl

theorem scan_body_snd_x (pos : List (gr_Vec2 F)) (acc : gr_Vec2 F × gr_Vec2 F) (i : Nat) :
    (gr_normalize_scan_body pos acc i).2.x = max acc.2.x (vertex_pos_at pos i).x := by
  simp only [gr_normalize_scan_body]
  rcases lt_or_le acc.2.x (vertex_pos_at pos i).x with h | h
  · rw [if_pos h, max_eq_right h.le]
    split <;> rfl
  · rw [if_neg (not_lt.2 h), max_eq_left h]
    split <;> rfl

theorem scan_body_snd_y (pos : List (gr_Vec2 F)) (acc : gr_Vec2 F × gr_Vec2 F) (i : Nat) :
    (gr_normalize_scan_body pos acc i).2.y = max acc.2.y (vertex_pos_at pos i).y := by
  simp only [gr_normalize_scan_body]
  have hy : ∀ m : gr_Vec2 F, m.y = acc.2.y →
      (if (vertex_pos_at pos i).y > m.y then
          ({ m with y := (vertex_pos_at pos i).y } : gr_Vec2 F) else m).y
        = max acc.2.y (vertex_pos_at pos i).y := by
    intro m hm
    rcases lt_or_le acc.2.y (vertex_pos_at pos i).y with h | h
    · rw [if_pos (by rw [hm]; exact h), max_eq_right h.le]
    · rw [if_neg (by rw [hm]; exact not_lt.2 h), max_eq_left h, hm]
  apply hy
  split <;> rfl

/-- After the scan of the first `n` vertices, `min` is not above and `max`
not below any of their coordinates, whatever the start values. -/
theorem scan_bounds (pos : List (gr_Vec2 F)) (start : gr_Vec2 F × gr_Vec2 F) (n : Nat) :
    ∀ i, i < n →
      ((List.range n).foldl (gr_normalize_scan_body pos) start).1.x
          ≤ (vertex_pos_at pos i).x ∧
      ((List.range n).foldl (gr_normalize_scan_body pos) start).1.y
          ≤ (vertex_pos_at pos i).y ∧
      (vertex_pos_at pos i).x
          ≤ ((List.range n).foldl (gr_normalize_scan_body pos) start).2.x ∧
      (vertex_pos_at pos i).y
          ≤ ((List.range n).foldl (gr_normalize_scan_body pos) start).2.y := by
  induction n with
  | zero => intro i hi; omega
  | succ n ih =>
    intro i hi
    rw [foldl_range_succ, scan_body_fst_x, scan_body_fst_y, scan_body_snd_x,
      scan_body_snd_y]
    by_cases hin : i = n
    · subst hin
      exact ⟨min_le_right _ _, min_le_right _ _, le_max_right _ _, le_max_right _ _⟩
    · obtain ⟨h1, h2, h3, h4⟩ := ih i (by omega)
      exact ⟨le_trans (min_le_left _ _) h1, le_trans (min_le_left _ _) h2,
        le_trans h3 (le_max_left _ _), le_trans h4 (le_max_left _ _)⟩

theorem normalize_lerp_body_eq (mn mx mins maxs : gr_Vec2 F) :
    ∀ (pos : List (gr_Vec2 F)) (i : Nat),
      gr_normalize_lerp_body mn mx mins maxs pos i
        = pos.set i
            ((fun (q : List (gr_Vec2 F)) (j : Nat) =>
              ({ x := gr_lerpf (vertex_pos_at q j).x mn.x mx.x mins.x maxs.x,
                 y := gr_lerpf (vertex_pos_at q j).y mn.y mx.y mins.y maxs.y } :
                gr_Vec2 F)) pos i) :=
  fun _ _ => rfl

/-- The second loop of the normalization maps the position of every vertex
`i` through `gr_lerpf`, coordinate by coordinate. -/
theorem normalize_loop_get (mn mx mins maxs : gr_Vec2 F) (pos : List (gr_Vec2 F))
    (n i : Nat) (hi : i < n) (hlen : i < pos.length) :
    vertex_pos_at ((List.range n).foldl (gr_normalize_lerp_body mn mx mins maxs) pos) i
      = { x := gr_lerpf (vertex_pos_at pos i).x mn.x mx.x mins.x maxs.x,
          y := gr_lerpf (vertex_pos_at pos i).y mn.y mx.y mins.y maxs.y } := by
  have h1 := set_loop_get_lt _ _ (normalize_lerp_body_eq mn mx mins maxs) pos
    (i + 1) n i (Nat.lt_succ_self i) hi
  have h2 := set_loop_get_new _ _ (normalize_lerp_body_eq mn mx mins maxs) pos i hlen
  have h3 := set_loop_get_ge _ _ (normalize_lerp_body_eq mn mx mins maxs) pos i i
    (le_refl i)
  have h4 : vertex_pos_at ((List.range i).foldl
      (gr_normalize_lerp_body mn mx mins maxs) pos) i = vertex_pos_at pos i := by
    simp only [vertex_pos_at, List.getD_eq_getElem?_getD, h3]
  simp only [vertex_pos_at, List.getD_eq_getElem?_getD, h1, h2, Option.getD_some]
  simp only [vertex_pos_at, List.getD_eq_getElem?_getD] at h4
  rw [h4]

theorem gr_lerpf_mem (v mn mx a b : F) (h1 : mn ≤ v) (h2 : v ≤ mx) (h3 : mn < mx)
    (hab : a < b) : a ≤ gr_lerpf v mn mx a b ∧ gr_lerpf v mn mx a b ≤ b := by
  have hden : 0 < mx - mn := by linarith
  have ht0 : 0 ≤ (v - mn) / (mx - mn) := div_nonneg (by linarith) hden.le
  have ht1 : (v - mn) / (mx - mn) ≤ 1 := (div_le_one hden).2 (by linarith)
  have hba : 0 < b - a := by linarith
  unfold gr_lerpf
  constructor
  · have := mul_nonneg ht0 hba.le
    linarith
  · have := mul_le_mul_of_nonneg_right ht1 hba.le
    linarith

/-- C12: for a context with one position per vertex whose positions take
at least two distinct values on each axis, and `mins.x < maxs.x`,
`mins.y < maxs.y`, `gr_render_ctx_normalize_ex` returns and every vertex
position `(x, y)` then satisfies `mins.x <= x <= maxs.x` and
`mins.y <= y <= maxs.y`. -/
theorem normalize_in_box (L : FloatH F) (ctx : gr_RenderContext F) (mins maxs : gr_Vec2 F)
    (hlen : ctx.vertex_pos.length = ctx.graph.n_verticies)
    (hx : ∃ a b, a < ctx.graph.n_verticies ∧ b < ctx.graph.n_verticies ∧
      (vertex_pos_at ctx.vertex_pos a).x ≠ (vertex_pos_at ctx.vertex_pos b).x)
    (hy : ∃ a b, a < ctx.graph.n_verticies ∧ b < ctx.graph.n_verticies ∧
      (vertex_pos_at ctx.vertex_pos a).y ≠ (vertex_pos_at ctx.vertex_pos b).y)
    (hmx : mins.x < maxs.x) (hmy : mins.y < maxs.y) :
    ∃ out, gr_render_ctx_normalize_ex L ctx mins maxs = some out ∧
      ∀ i, i < ctx.graph.n_verticies →
        mins.x ≤ (vertex_pos_at out.vertex_pos i).x ∧
        (vertex_pos_at out.vertex_pos i).x ≤ maxs.x ∧
        mins.y ≤ (vertex_pos_at out.vertex_pos i).y ∧
        (vertex_pos_at out.vertex_pos i).y ≤ maxs.y := by
  refine ⟨_, if_pos ⟨hmx, hmy⟩, ?_⟩
  intro i hi
  have hb := scan_bounds ctx.vertex_pos
    ({ x := L.FLT_MAX, y := L.FLT_MAX }, { x := L.FLT_MIN, y := L.FLT_MIN })
    ctx.graph.n_verticies
  have hdx : (gr_normalize_scan L ctx).1.x < (gr_normalize_scan L ctx).2.x := by
    obtain ⟨a, b, ha, hb2, hne⟩ := hx
    have h1 := hb a ha
    have h2 := hb b hb2
    unfold gr_normalize_scan
    rcases lt_or_gt_of_ne hne with h | h
    · exact lt_of_le_of_lt h1.1 (lt_of_lt_of_le h h2.2.2.1)
    · exact lt_of_le_of_lt h2.1 (lt_of_lt_of_le h h1.2.2.1)
  have hdy : (gr_normalize_scan L ctx).1.y < (gr_normalize_scan L ctx).2.y := by
    obtain ⟨a, b, ha, hb2, hne⟩ := hy
    have h1 := hb a ha
    have h2 := hb b hb2
    unfold gr_normalize_scan
    rcases lt_or_gt_of_ne hne with h | h
    · exact lt_of_le_of_lt h1.2.1 (lt_of_lt_of_le h h2.2.2.2)
    · exact lt_of_le_of_lt h2.2.1 (lt_of_lt_of_le h h1.2.2.2)
  have hi2 := hb i hi
  simp only [normalize_loop_get _ _ mins maxs ctx.vertex_pos ctx.graph.n_verticies i hi
    (by rw [hlen]; exact hi)]
  have hX := gr_lerpf_mem (vertex_pos_at ctx.vertex_pos i).x _ _ mins.x maxs.x
    hi2.1 hi2.2.2.1 hdx hmx
  have hY := gr_lerpf_mem (vertex_pos_at ctx.vertex_pos i).y _ _ mins.y maxs.y
    hi2.2.1 hi2.2.2.2 hdy hmy
  exact ⟨hX.1, hX.2, hY.1, hY.2⟩

theorem normalize_in_box_witness :
    ∃ out, gr_render_ctx_normalize_ex ieee_single below_zero_pair ⟨0, 0⟩ ⟨1, 1⟩ = some out ∧
      ∀ i, i < below_zero_pair.graph.n_verticies →
        (0 : ℚ) ≤ (vertex_pos_at out.vertex_pos i).x ∧
        (vertex_pos_at out.vertex_pos i).x ≤ 1 ∧
        (0 : ℚ) ≤ (vertex_pos_at out.vertex_pos i).y ∧
        (vertex_pos_at out.vertex_pos i).y ≤ 1 :=
  normalize_in_box ieee_single below_zero_pair ⟨0, 0⟩ ⟨1, 1⟩ rfl
    ⟨0, 1, by decide, by decide, by simp [below_zero_pair, vertex_pos_at]⟩
    ⟨0, 1, by decide, by decide, by simp [below_zero_pair, vertex_pos_at]⟩
    (by norm_num) (by norm_num)

/-- C11: on the two-vertex context with positions `(-2,-2)` and `(-1,-1)`,
`mins = (0,0)` and `maxs = (1,1)`, with the IEEE single `FLT_MAX` and
`FLT_MIN`, `gr_render_ctx_normalize_ex` leaves vertex 1, which had the
maximum coordinate on both axes, at `2^126 / (2^127 + 1)` on both axes, a
value below `maxs`; `max` was never lowered from its start value
`FLT_MIN`. -/
theorem normalize_max_below_maxs :
    gr_normalize_scan ieee_single below_zero_pair
      = (⟨-2, -2⟩, ⟨1 / 85070591730234615865843651857942052864,
          1 / 85070591730234615865843651857942052864⟩) ∧
    gr_render_ctx_normalize_ex ieee_single below_zero_pair ⟨0, 0⟩ ⟨1, 1⟩
      = some { below_zero_pair with
          vertex_pos :=
            [⟨0, 0⟩,
             ⟨85070591730234615865843651857942052864
                / 170141183460469231731687303715884105729,
              85070591730234615865843651857942052864
                / 170141183460469231731687303715884105729⟩] } ∧
    (85070591730234615865843651857942052864
      / 170141183460469231731687303715884105729 : ℚ) < 1 := by
  refine ⟨?_, ?_, by norm_num⟩
  · simp [below_zero_pair, gr_normalize_scan, List.range_succ, gr_normalize_scan_body,
      vertex_pos_at, ieee_single]
    norm_num
  · simp [gr_render_ctx_normalize_ex, below_zero_pair, gr_normalize_scan, List.range_succ,
      gr_normalize_scan_body, gr_normalize_lerp_body, vertex_pos_at, ieee_single, gr_lerpf]
    norm_num

/-- When every vertex has the same `x` coordinate `c`, there is at least
one vertex and `FLT_MIN <= c <= FLT_MAX`, the scan leaves
`min.x = max.x = c`: the `x` interpolation divides by zero. -/
theorem scan_degenerate_x (L : FloatH F) (ctx : gr_RenderContext F) (c : F)
    (hn : 0 < ctx.graph.n_verticies)
    (hc : ∀ i, i < ctx.graph.n_verticies → (vertex_pos_at ctx.vertex_pos i).x = c)
    (hlo : L.FLT_MIN ≤ c) (hhi : c ≤ L.FLT_MAX) :
    (gr_normalize_scan L ctx).2.x - (gr_normalize_scan L ctx).1.x = 0 := by
  have key : ∀ n, n < ctx.graph.n_verticies →
      ((List.range (n + 1)).foldl (gr_normalize_scan_body ctx.vertex_pos)
        (({ x := L.FLT_MAX, y := L.FLT_MAX } : gr_Vec2 F),
          ({ x := L.FLT_MIN, y := L.FLT_MIN } : gr_Vec2 F))).1.x = c ∧
      ((List.range (n + 1)).foldl (gr_normalize_scan_body ctx.vertex_pos)
        (({ x := L.FLT_MAX, y := L.FLT_MAX } : gr_Vec2 F),
          ({ x := L.FLT_MIN, y := L.FLT_MIN } : gr_Vec2 F))).2.x = c := by
    intro n
    induction n with
    | zero =>
      intro h0
      rw [foldl_range_succ, scan_body_fst_x, scan_body_snd_x, hc 0 h0]
      exact ⟨min_eq_right hhi, max_eq_right hlo⟩
    | succ n ih =>
      intro hlt
      obtain ⟨h1, h2⟩ := ih (by omega)
      rw [foldl_range_succ, scan_body_fst_x, scan_body_snd_x, hc (n + 1) hlt, h1, h2]
      exact ⟨min_self c, max_self c⟩
  obtain ⟨m, hm⟩ : ∃ m, ctx.graph.n_verticies = m + 1 := ⟨ctx.graph.n_verticies - 1, by omega⟩
  have := key m (by omega)
  unfold gr_normalize_scan
  rw [hm, this.1, this.2, sub_self]

/-- C18: on the one-vertex context with its vertex at `(0,0)`, where all
vertices share their coordinate on both axes, the scan of
`gr_render_ctx_normalize_ex` with the IEEE single constants leaves
`min = (0,0)` and `max = (FLT_MIN, FLT_MIN)`, so the denominator
`max - min` of the interpolation is `FLT_MIN`, not zero, on both axes. -/
theorem normalize_degenerate_nonzero_denominator :
    (∀ i j, i < single_origin.graph.n_verticies → j < single_origin.graph.n_verticies →
      vertex_pos_at single_origin.vertex_pos i = vertex_pos_at single_origin.vertex_pos j) ∧
    gr_normalize_scan ieee_single single_origin
      = (⟨0, 0⟩, ⟨1 / 85070591730234615865843651857942052864,
          1 / 85070591730234615865843651857942052864⟩) ∧
    (gr_normalize_scan ieee_single single_origin).2.x
      - (gr_normalize_scan ieee_single single_origin).1.x ≠ 0 ∧
    (gr_normalize_scan ieee_single single_origin).2.y
      - (gr_normalize_scan ieee_single single_origin).1.y ≠ 0 := by
  have hscan : gr_normalize_scan ieee_single single_origin
      = (⟨0, 0⟩, ⟨1 / 85070591730234615865843651857942052864,
          1 / 85070591730234615865843651857942052864⟩) := by
    simp [single_origin, gr_normalize_scan, List.range_succ, gr_normalize_scan_body,
      vertex_pos_at, ieee_single]
    norm_num
  refine ⟨?_, hscan, ?_, ?_⟩
  · intro i j hi hj
    have hi0 : i = 0 := by
      have : i < 1 := hi
      omega
    have hj0 : j = 0 := by
      have : j < 1 := hj
      omega
    rw [hi0, hj0]
  · rw [hscan]
    norm_num
  · rw [hscan]
    norm_num

end NormalizeTheorems

/-! ## The order of the updates within a step -/

section GaussSeidel

variable {F : Type} [LinearOrderedField F]

theorem set_loop_gauss_seidel {α : Type} (step : List α → Nat → List α)
    (f : List α → Nat → α) (hstep : ∀ pos n, step pos n = pos.set n (f pos n))
    (P : List α) (N n : Nat) (hN : N ≤ P.length) (hn : n < N) :
    ((List.range N).foldl step P)[n]?
      = (step (((List.range N).foldl step P).take n ++ P.drop n) n)[n]? := by
  rw [← set_loop_prefix step f hstep P N n hN (le_of_lt hn), ← foldl_range_succ step P n,
    set_loop_get_lt step f hstep P (n + 1) N n (Nat.lt_succ_self n) hn]

theorem eades_vertex_eq (M : MathH F) (graph : gr_Graph) (eades : gr_RenderMethodEades F) :
    ∀ (pos : List (gr_Vec2 F)) (n : Nat),
      gr_eades_vertex M graph eades pos n
        = pos.set n
            ((fun (q : List (gr_Vec2 F)) (m : Nat) =>
              ({ x := (vertex_pos_at q m).x + eades.c4 *
                    ((List.range graph.n_verticies).foldl
                      (gr_eades_body M graph eades q m) gr_vec2zero).x,
                 y := (vertex_pos_at q m).y + eades.c4 *
                    ((List.range graph.n_verticies).foldl
                      (gr_eades_body M graph eades q m) gr_vec2zero).y } :
                gr_Vec2 F)) pos n) :=
  fun _ _ => rfl

theorem fruchtgold_vertex_eq (M : MathH F) (graph : gr_Graph)
    (fag : gr_RenderMethodFruchtgold F) (k : F) :
    ∀ (pos : List (gr_Vec2 F)) (n : Nat),
      gr_fruchtgold_vertex M graph fag k pos n
        = pos.set n
            ((fun (q : List (gr_Vec2 F)) (m : Nat) =>
              ({ x := (vertex_pos_at q m).x + fag.cur_temp *
                    ((List.range graph.n_verticies).foldl
                      (gr_fruchtgold_body M graph fag k q m) gr_vec2zero).x,
                 y := (vertex_pos_at q m).y + fag.cur_temp *
                    ((List.range graph.n_verticies).foldl
                      (gr_fruchtgold_body M graph fag k q m) gr_vec2zero).y } :
                gr_Vec2 F)) pos n) :=
  fun _ _ => rfl

theorem eades_body_y (M : MathH F) (graph : gr_Graph) (eades : gr_RenderMethodEades F)
    (pos : List (gr_Vec2 F)) (n : Nat)
    (hy : ∀ i, (gr_step_other eades.grav_cen pos n i).y = (vertex_pos_at pos n).y)
    (force : gr_Vec2 F) (i : Nat) :
    (gr_eades_body M graph eades pos n force i).y = force.y := by
  rw [gr_eades_body_eq, hy i]
  unfold gr_eades_force_add
  split
  · simp
  · split <;> simp

theorem eades_force_y (M : MathH F) (graph : gr_Graph) (eades : gr_RenderMethodEades F)
    (pos : List (gr_Vec2 F)) (n : Nat)
    (hy : ∀ i, (gr_step_other eades.grav_cen pos n i).y = (vertex_pos_at pos n).y)
    (l : List Nat) :
    ∀ force : gr_Vec2 F, (l.foldl (gr_eades_body M graph eades pos n) force).y = force.y := by
  induction l with
  | nil => intro force; rfl
  | cons i rest ih =>
    intro force
    rw [List.foldl_cons, ih, eades_body_y M graph eades pos n hy]

theorem path3_eq :
    path3 = ⟨3, [false, true, false, true, false, true, false, true, false]⟩ := by
  decide

theorem axis_distance (a b : ℝ) :
    gr_step_distance (F := ℝ) ⟨Real.sqrt, Real.log⟩ ⟨a, 0⟩ ⟨b, 0⟩ = gr_not0f |a - b| := by
  simp only [gr_step_distance, gr_sq, sub_self, mul_zero, add_zero]
  rw [Real.sqrt_mul_self_eq_abs]

theorem eades_example_vertex0 :
    gr_eades_vertex (F := ℝ) ⟨Real.sqrt, Real.log⟩ path3
        ⟨2, 1, 1, 1 / 10, ⟨0, 0⟩⟩ [⟨0, 0⟩, ⟨1, 0⟩, ⟨2, 0⟩] 0
      = [⟨-1 / 40, 0⟩, ⟨1, 0⟩, ⟨2, 0⟩] := by
  simp only [gr_eades_vertex, path3_eq, List.range_succ, List.range_zero, List.nil_append,
    List.cons_append, List.foldl_cons, List.foldl_nil, gr_eades_body_eq]
  simp [gr_eades_force_add, gr_step_other, vertex_pos_at, axis_distance, gr_Graph.edges,
    gr_vec2zero, gr_not0f, gr_sq]
  norm_num

theorem eades_example_vertex1 :
    gr_eades_vertex (F := ℝ) ⟨Real.sqrt, Real.log⟩ path3
        ⟨2, 1, 1, 1 / 10, ⟨0, 0⟩⟩ [⟨-1 / 40, 0⟩, ⟨1, 0⟩, ⟨2, 0⟩] 1
      = [⟨-1 / 40, 0⟩, ⟨1 - (1 / 5) * Real.log (41 / 40), 0⟩, ⟨2, 0⟩] := by
  have habs : |(41 : ℝ) / 40| = 41 / 40 := abs_of_pos (by norm_num)
  simp only [gr_eades_vertex, path3_eq, List.range_succ, List.range_zero, List.nil_append,
    List.cons_append, List.foldl_cons, List.foldl_nil, gr_eades_body_eq]
  simp [gr_eades_force_add, gr_step_other, vertex_pos_at, axis_distance, gr_Graph.edges,
    gr_vec2zero, gr_not0f, gr_sq]
  norm_num
  rw [habs]
  ring

theorem eades_example_jacobi1 :
    gr_eades_vertex (F := ℝ) ⟨Real.sqrt, Real.log⟩ path3
        ⟨2, 1, 1, 1 / 10, ⟨0, 0⟩⟩ [⟨0, 0⟩, ⟨1, 0⟩, ⟨2, 0⟩] 1
      = [⟨0, 0⟩, ⟨1, 0⟩, ⟨2, 0⟩] := by
  simp only [gr_eades_vertex, path3_eq, List.range_succ, List.range_zero, List.nil_append,
    List.cons_append, List.foldl_cons, List.foldl_nil, gr_eades_body_eq]
  simp [gr_eades_force_add, gr_step_other, vertex_pos_at, axis_distance, gr_Graph.edges,
    gr_vec2zero, gr_not0f, gr_sq]
  norm_num

theorem eades_example_positions :
    (gr_render_step_unchecked (F := ℝ) ⟨Real.sqrt, Real.log⟩ eades_example).vertex_pos
      = gr_eades_vertex (F := ℝ) ⟨Real.sqrt, Real.log⟩ path3 ⟨2, 1, 1, 1 / 10, ⟨0, 0⟩⟩
          [⟨-1 / 40, 0⟩, ⟨1 - (1 / 5) * Real.log (41 / 40), 0⟩, ⟨2, 0⟩] 2 := by
  have h3 : path3.n_verticies = 3 := by decide
  have hm : (eades_example (F := ℝ)).method
      = gr_RenderMethod.eades ⟨2, 1, 1, 1 / 10, ⟨0, 0⟩⟩ := rfl
  simp only [gr_render_step_unchecked, hm, gr_step_method_eades]
  simp only [eades_example, h3, List.range_succ, List.range_zero, List.nil_append,
    List.cons_append, List.foldl_cons, List.foldl_nil]
  rw [eades_example_vertex0, eades_example_vertex1]

theorem log_41_40_bounds : 0 < Real.log (41 / 40) ∧ Real.log (41 / 40) < 5 := by
  constructor
  · exact Real.log_pos (by norm_num)
  · have := Real.log_le_sub_one_of_pos (show (0 : ℝ) < 41 / 40 by norm_num)
    linarith

theorem eades_example_y (i : Nat) :
    (gr_step_other (F := ℝ) ⟨0, 0⟩
        [⟨-1 / 40, 0⟩, ⟨1 - (1 / 5) * Real.log (41 / 40), 0⟩, ⟨2, 0⟩] 2 i).y
      = (vertex_pos_at (F := ℝ)
          [⟨-1 / 40, 0⟩, ⟨1 - (1 / 5) * Real.log (41 / 40), 0⟩, ⟨2, 0⟩] 2).y := by
  unfold gr_step_other
  split
  · simp [vertex_pos_at]
  · rcases i with _ | _ | _ | i <;> simp [vertex_pos_at, gr_vec2zero]

/-- C17: one `gr_render_step` of the default Eades method on the path
graph with edges `(0,1)`, `(1,2)` and positions `(0,0), (1,0), (2,0)`, in
real arithmetic: the three positions remain, vertex 0 moves to
`(-0.025, 0)`, vertex 1 moves to `(1 - 0.2 * ln 1.025, 0)`, which lies
strictly between `(0,0)` and its old position `(1,0)`, and the `y`
coordinate of vertex 2 stays `0`. -/
theorem eades_example_step :
    (gr_render_step (F := ℝ) ⟨Real.sqrt, Real.log⟩ eades_example).vertex_pos.length = 3 ∧
    vertex_pos_at (gr_render_step (F := ℝ) ⟨Real.sqrt, Real.log⟩ eades_example).vertex_pos 0
      = ⟨-1 / 40, 0⟩ ∧
    vertex_pos_at (gr_render_step (F := ℝ) ⟨Real.sqrt, Real.log⟩ eades_example).vertex_pos 1
      = ⟨1 - (1 / 5) * Real.log (41 / 40), 0⟩ ∧
    (vertex_pos_at
      (gr_render_step (F := ℝ) ⟨Real.sqrt, Real.log⟩ eades_example).vertex_pos 2).y = 0 ∧
    0 < 1 - (1 / 5) * Real.log (41 / 40) ∧
    1 - (1 / 5) * Real.log (41 / 40) < 1 := by
  have hpos : (gr_render_step (F := ℝ) ⟨Real.sqrt, Real.log⟩ eades_example).vertex_pos
      = gr_eades_vertex (F := ℝ) ⟨Real.sqrt, Real.log⟩ path3 ⟨2, 1, 1, 1 / 10, ⟨0, 0⟩⟩
          [⟨-1 / 40, 0⟩, ⟨1 - (1 / 5) * Real.log (41 / 40), 0⟩, ⟨2, 0⟩] 2 :=
    eades_example_positions
  have hlog := log_41_40_bounds
  rw [hpos, eades_vertex_eq]
  refine ⟨by simp, by simp [vertex_pos_at], by simp [vertex_pos_at], ?_, by linarith,
    by linarith⟩
  simp only [vertex_pos_at, List.getD_eq_getElem?_getD, List.set_cons_succ,
    List.set_cons_zero, List.getElem?_cons_succ, List.getElem?_cons_zero, Option.getD_some]
  have hfy := eades_force_y (F := ℝ) ⟨Real.sqrt, Real.log⟩ path3 ⟨2, 1, 1, 1 / 10, ⟨0, 0⟩⟩
    [⟨-1 / 40, 0⟩, ⟨1 - (1 / 5) * Real.log (41 / 40), 0⟩, ⟨2, 0⟩] 2 eades_example_y
    (List.range path3.n_verticies) gr_vec2zero
  rw [hfy]
  simp [gr_vec2zero]

/-- C19: in a step of either force model on a context with one position
per vertex, the new position of vertex `n` is the one the loop body for `n`
computes from the array holding the new positions of the vertices below `n`
and the old positions of the vertices from `n` on; and on the 3-vertex
Eades example the step differs from the update in which every vertex reads
only the old positions. -/
theorem step_is_gauss_seidel (M : MathH F) (ctx : gr_RenderContext F)
    (hlen : ctx.vertex_pos.length = ctx.graph.n_verticies)
    (n : Nat) (hn : n < ctx.graph.n_verticies) :
    (∀ e, ctx.method = gr_RenderMethod.eades e →
      vertex_pos_at (gr_render_step M ctx).vertex_pos n
        = vertex_pos_at
            (gr_eades_vertex M ctx.graph e
              ((gr_render_step M ctx).vertex_pos.take n ++ ctx.vertex_pos.drop n) n) n) ∧
    (∀ f, ctx.method = gr_RenderMethod.fruchtgold f →
      vertex_pos_at (gr_render_step M ctx).vertex_pos n
        = vertex_pos_at
            (gr_fruchtgold_vertex M ctx.graph f
              (f.c * M.sqrtf (f.area / (ctx.graph.n_verticies : F)))
              ((gr_render_step M ctx).vertex_pos.take n ++ ctx.vertex_pos.drop n) n) n) ∧
    (gr_render_step (F := ℝ) ⟨Real.sqrt, Real.log⟩ eades_example).vertex_pos
      ≠ eades_jacobi (F := ℝ) ⟨Real.sqrt, Real.log⟩ eades_example
          ⟨2, 1, 1, 1 / 10, ⟨0, 0⟩⟩ := by
  refine ⟨?_, ?_, ?_⟩
  · intro e hm
    have hv : (gr_render_step M ctx).vertex_pos
        = (List.range ctx.graph.n_verticies).foldl (gr_eades_vertex M ctx.graph e)
            ctx.vertex_pos := by
      simp only [gr_render_step, gr_render_step_unchecked, hm, gr_step_method_eades]
    rw [hv]
    simp only [vertex_pos_at, List.getD_eq_getElem?_getD]
    rw [set_loop_gauss_seidel _ _ (eades_vertex_eq M ctx.graph e) ctx.vertex_pos
      ctx.graph.n_verticies n (le_of_eq hlen.symm) hn]
  · intro f hm
    have hv : (gr_render_step M ctx).vertex_pos
        = (List.range ctx.graph.n_verticies).foldl
            (gr_fruchtgold_vertex M ctx.graph f
              (f.c * M.sqrtf (f.area / (ctx.graph.n_verticies : F)))) ctx.vertex_pos := by
      simp only [gr_render_step, gr_render_step_unchecked, hm,
        gr_step_method_fruchtman_and_reingold]
    rw [hv]
    simp only [vertex_pos_at, List.getD_eq_getElem?_getD]
    rw [set_loop_gauss_seidel _ _ (fruchtgold_vertex_eq M ctx.graph f _) ctx.vertex_pos
      ctx.graph.n_verticies n (le_of_eq hlen.symm) hn]
  · intro heq
    have hpos : (gr_render_step (F := ℝ) ⟨Real.sqrt, Real.log⟩ eades_example).vertex_pos
        = gr_eades_vertex (F := ℝ) ⟨Real.sqrt, Real.log⟩ path3 ⟨2, 1, 1, 1 / 10, ⟨0, 0⟩⟩
            [⟨-1 / 40, 0⟩, ⟨1 - (1 / 5) * Real.log (41 / 40), 0⟩, ⟨2, 0⟩] 2 :=
      eades_example_positions
    have h3 : path3.n_verticies = 3 := by decide
    have h1 : vertex_pos_at
        (gr_render_step (F := ℝ) ⟨Real.sqrt, Real.log⟩ eades_example).vertex_pos 1
        = ⟨1 - (1 / 5) * Real.log (41 / 40), 0⟩ := by
      rw [hpos, eades_vertex_eq]
      simp [vertex_pos_at]
    have h2 : vertex_pos_at
        (eades_jacobi (F := ℝ) ⟨Real.sqrt, Real.log⟩ eades_example
          ⟨2, 1, 1, 1 / 10, ⟨0, 0⟩⟩) 1 = ⟨1, 0⟩ := by
      simp only [eades_jacobi, eades_example, h3, List.range_succ, List.range_zero,
        List.nil_append, List.cons_append, List.map_cons, List.map_nil,
        eades_example_jacobi1]
      simp [vertex_pos_at]
    rw [heq, h2] at h1
    have hx := congrArg gr_Vec2.x h1
    have hlog := log_41_40_bounds
    simp only at hx
    linarith

theorem step_is_gauss_seidel_witness :
    vertex_pos_at (gr_render_step (F := ℝ) ⟨Real.sqrt, Real.log⟩ eades_example).vertex_pos 1
      = vertex_pos_at
          (gr_eades_vertex (F := ℝ) ⟨Real.sqrt, Real.log⟩ (eades_example (F := ℝ)).graph
            ⟨2, 1, 1, 1 / 10, ⟨0, 0⟩⟩
            ((gr_render_step (F := ℝ) ⟨Real.sqrt, Real.log⟩ eades_example).vertex_pos.take 1
              ++ (eades_example (F := ℝ)).vertex_pos.drop 1) 1) 1 :=
  (step_is_gauss_seidel (F := ℝ) ⟨Real.sqrt, Real.log⟩ eades_example rfl 1
    (by decide)).1 ⟨2, 1, 1, 1 / 10, ⟨0, 0⟩⟩ rfl

end GaussSeidel

/-! ## Symmetry of undirected graphs -/

section Symmetry

theorem add_edge_allocated (g : gr_Graph) (e : gr_Edge) (hg : g.allocated) :
    (gr_graph_add_edge g e).2.allocated := by
  by_cases he : e.in_bounds g
  · rw [add_edge_in_bounds_eq g e he]
    split
    · exact edges_set_allocated g _ _ true hg
    · exact edges_set_allocated _ _ _ true (edges_set_allocated g _ _ true hg)
  · rw [add_edge_out_of_bounds_eq g e he]
    exact hg

/-- The entries of an allocated graph after the two writes of an undirected
in-bounds edge `(a, b)`. -/
theorem edges_after_undirected (g : gr_Graph) (a b i j : Nat) (hg : g.allocated)
    (ha : a < g.n_verticies) (hb : b < g.n_verticies)
    (hi : i < g.n_verticies) (hj : j < g.n_verticies) :
    ((g.edges_set a b true).edges_set b a true).edges i j
      = (decide ((i = a ∧ j = b) ∨ (i = b ∧ j = a)) || g.edges i j) := by
  by_cases h1 : i = b ∧ j = a
  · obtain ⟨rfl, rfl⟩ := h1
    rw [edges_set_same _ i j true (edges_set_allocated g _ _ true hg) hi hj]
    simp
  · rw [edges_set_other _ b a i j true (by simpa using ha) (by simpa using hj) h1]
    by_cases h2 : i = a ∧ j = b
    · obtain ⟨rfl, rfl⟩ := h2
      rw [edges_set_same g i j true hg hi hj]
      simp
    · rw [edges_set_other g a b i j true hb hj h2]
      simp [h1, h2]

theorem add_edge_symmetric (g : gr_Graph) (e : gr_Edge) (hg : g.allocated)
    (hs : g.symmetric) (hd : e.directed = false) :
    (gr_graph_add_edge g e).2.symmetric := by
  by_cases he : e.in_bounds g
  · rw [add_edge_in_bounds_eq g e he]
    simp only [hd, Bool.false_eq_true, if_false]
    intro i hi j hj
    have hi2 : i < g.n_verticies := by simpa using hi
    have hj2 : j < g.n_verticies := by simpa using hj
    rw [edges_after_undirected g _ _ i j hg he.1 he.2 hi2 hj2,
      edges_after_undirected g _ _ j i hg he.1 he.2 hj2 hi2, hs i hi2 j hj2]
    congr 1
    apply decide_eq_decide.2
    constructor
    · rintro (⟨h1, h2⟩ | ⟨h1, h2⟩)
      · exact Or.inr ⟨h2, h1⟩
      · exact Or.inl ⟨h2, h1⟩
    · rintro (⟨h1, h2⟩ | ⟨h1, h2⟩)
      · exact Or.inr ⟨h2, h1⟩
      · exact Or.inl ⟨h2, h1⟩
  · rw [add_edge_out_of_bounds_eq g e he]
    exact hs

theorem add_edges_from_symmetric (es : List gr_Edge) :
    ∀ (g : gr_Graph) (c : Nat), g.allocated → g.symmetric →
      (∀ e ∈ es, e.directed = false) →
      (gr_graph_add_edges_from g c es).2.allocated ∧
      (gr_graph_add_edges_from g c es).2.symmetric := by
  induction es with
  | nil => intro g c hg hs _; exact ⟨hg, hs⟩
  | cons a rest ih =>
    intro g c hg hs hd
    by_cases he : a.in_bounds g
    · rw [add_edges_from_in_bounds g c a rest he]
      exact ih _ (c + 1) (add_edge_allocated g a hg)
        (add_edge_symmetric g a hg hs (hd a (List.mem_cons_self a rest)))
        (fun e hmem => hd e (List.mem_cons_of_mem a hmem))
    · rw [add_edges_from_out_of_bounds g c a rest he]
      exact ⟨hg, hs⟩

theorem init_allocated_symmetric (SIZE_MAX n : Nat) (g : gr_Graph)
    (hfit : n * n ≤ SIZE_MAX)
    (h : gr_graph_init SIZE_MAX true true n = Except.ok g) :
    g.allocated ∧ g.symmetric := by
  have hmod : n * n % (SIZE_MAX + 1) = n * n := Nat.mod_eq_of_lt (by omega)
  unfold gr_graph_init at h
  split at h
  · simp only [if_true, hmod] at h
    cases h
    refine ⟨by simp [gr_Graph.allocated], ?_⟩
    intro a ha b hb
    have h1 := cell_index_lt (n := n) ha hb
    have h2 := cell_index_lt (n := n) hb ha
    simp [gr_Graph.edges, List.getD_eq_getElem?_getD, List.getElem?_replicate, h1, h2]
  · cases h

theorem built_undirected_invariant (g : gr_Graph) (h : built_undirected g) :
    g.allocated ∧ g.symmetric := by
  induction h with
  | init SIZE_MAX n g hfit hinit => exact init_allocated_symmetric SIZE_MAX n g hfit hinit
  | add_edge g e _ hd ih => exact ⟨add_edge_allocated g e ih.1, add_edge_symmetric g e ih.1 ih.2 hd⟩
  | add_edges g es _ hd ih => exact add_edges_from_symmetric es g 0 ih.1 ih.2 hd

/-- C21: symmetry of the adjacency is kept by `gr_graph_add_edge` with any
undirected edge, in or out of bounds, on an allocated graph; hence every
graph built from `gr_graph_init` (with `n * n` within `SIZE_MAX`) with
undirected edges only, through `gr_graph_add_edge` or
`gr_graph_add_edges`, has a symmetric adjacency. -/
theorem undirected_keeps_symmetry :
    (∀ (g : gr_Graph) (e : gr_Edge), g.allocated → g.symmetric → e.directed = false →
      (gr_graph_add_edge g e).2.symmetric) ∧
    (∀ g : gr_Graph, built_undirected g → g.symmetric) :=
  ⟨add_edge_symmetric, fun g h => (built_undirected_invariant g h).2⟩

theorem undirected_keeps_symmetry_witness :
    (gr_graph_add_edge ⟨2, [false, true, true, false]⟩ (gr_edge_u 1 1)).2.symmetric ∧
    (gr_graph_add_edges ⟨2, [false, false, false, false]⟩
      [gr_edge_u 0 1, gr_edge_u 1 1]).2.symmetric :=
  ⟨undirected_keeps_symmetry.1 ⟨2, [false, true, true, false]⟩ (gr_edge_u 1 1)
      (by decide) (by decide) rfl,
   undirected_keeps_symmetry.2 _
      (built_undirected.add_edges ⟨2, [false, false, false, false]⟩
        [gr_edge_u 0 1, gr_edge_u 1 1]
        (built_undirected.init 18446744073709551615 2 ⟨2, [false, false, false, false]⟩
          (by decide) rfl)
        (by decide))⟩

end Symmetry

/-! ## What a step and a normalization leave alone -/

section Frame

variable {F : Type} [LinearOrderedField F]

theorem step_positions_length (M : MathH F) (ctx : gr_RenderContext F) :
    (gr_render_step_unchecked M ctx).vertex_pos.length = ctx.vertex_pos.length := by
  cases hm : ctx.method with
  | eades e =>
    simp only [gr_render_step_unchecked, hm, gr_step_method_eades]
    exact set_loop_length _ _ (eades_vertex_eq M ctx.graph e) _ _
  | fruchtgold f =>
    simp only [gr_render_step_unchecked, hm, gr_step_method_fruchtman_and_reingold]
    exact set_loop_length _ _ (fruchtgold_vertex_eq M ctx.graph f _) _ _

theorem step_eades_method (M : MathH F) (ctx : gr_RenderContext F)
    (e : gr_RenderMethodEades F) (hm : ctx.method = gr_RenderMethod.eades e) :
    (gr_render_step_unchecked M ctx).method = gr_RenderMethod.eades e := by
  simp only [gr_render_step_unchecked, hm, gr_step_method_eades]

theorem normalize_some (L : FloatH F) (ctx out : gr_RenderContext F) (mins maxs : gr_Vec2 F)
    (h : gr_render_ctx_normalize_ex L ctx mins maxs = some out) :
    out = { ctx with
      vertex_pos := (List.range ctx.graph.n_verticies).foldl
        (gr_normalize_lerp_body (gr_normalize_scan L ctx).1 (gr_normalize_scan L ctx).2
          mins maxs) ctx.vertex_pos } := by
  unfold gr_render_ctx_normalize_ex at h
  split at h
  · exact (Option.some.inj h).symm
  · cases h

/-- C23: a step changes neither the graph nor the number of positions; an
Eades step returns the method record as it was; a Fruchterman-Reingold step
returns the method record with at most `cur_temp` changed; the tag of the
method is kept; and a normalization that returns changes no field of the
context other than `vertex_pos`, whose length it keeps. -/
theorem step_and_normalize_frame (M : MathH F) (L : FloatH F) (ctx : gr_RenderContext F)
    (mins maxs : gr_Vec2 F) :
    (gr_render_step M ctx).graph = ctx.graph ∧
    (gr_render_step M ctx).vertex_pos.length = ctx.vertex_pos.length ∧
    (∀ e, ctx.method = gr_RenderMethod.eades e →
      (gr_render_step M ctx).method = gr_RenderMethod.eades e) ∧
    (∀ f, ctx.method = gr_RenderMethod.fruchtgold f →
      ∃ t, (gr_render_step M ctx).method
        = gr_RenderMethod.fruchtgold { f with cur_temp := t }) ∧
    (gr_render_step M ctx).method.kind = ctx.method.kind ∧
    (∀ out, gr_render_ctx_normalize_ex L ctx mins maxs = some out →
      out.graph = ctx.graph ∧ out.method = ctx.method ∧
      out.cur_iteration = ctx.cur_iteration ∧
      out.positions_initialized = ctx.positions_initialized ∧
      out.vertex_pos.length = ctx.vertex_pos.length) := by
  refine ⟨step_graph M ctx, step_positions_length M ctx, step_eades_method M ctx,
    fun f hm => ⟨_, step_fruchtgold_method M ctx f hm⟩, ?_, ?_⟩
  · cases hm : ctx.method with
    | eades e =>
      have h := step_eades_method M ctx e hm
      unfold gr_render_step
      rw [h]
    | fruchtgold f =>
      have h := step_fruchtgold_method M ctx f hm
      unfold gr_render_step
      rw [h]
      rfl
  · intro out h
    rw [normalize_some L ctx out mins maxs h]
    exact ⟨rfl, rfl, rfl, rfl,
      set_loop_length _ _ (normalize_lerp_body_eq _ _ mins maxs) _ _⟩

theorem step_and_normalize_frame_witness :
    (gr_render_step (F := ℝ) ⟨Real.sqrt, Real.log⟩ eades_example).method
      = gr_RenderMethod.eades ⟨2, 1, 1, 1 / 10, ⟨0, 0⟩⟩ :=
  (step_and_normalize_frame (F := ℝ) ⟨Real.sqrt, Real.log⟩ ieee_single eades_example
    ⟨0, 0⟩ ⟨1, 1⟩).2.2.1 ⟨2, 1, 1, 1 / 10, ⟨0, 0⟩⟩ rfl

end Frame

/-! ## Coincident points -/

section Coincident

variable {F : Type} [LinearOrderedField F]

end Coincident

/-! ## Normalizing twice -/

section Idempotence

variable {F : Type} [LinearOrderedField F]

/-- C22: on the two-vertex context with positions `(-2,-2)` and `(-1,-1)`,
`mins = (0,0)` and `maxs = (1,1)`, with the IEEE single `FLT_MAX` and
`FLT_MIN`, a first `gr_render_ctx_normalize_ex` leaves vertex 1 at
`2^126 / (2^127 + 1)` on both axes and a second one, with the same `mins`
and `maxs`, moves it to `(1,1)`: normalizing twice does not give the
positions of normalizing once. -/
theorem normalize_twice_differs :
    gr_render_ctx_normalize_ex ieee_single below_zero_pair ⟨0, 0⟩ ⟨1, 1⟩
      = some { below_zero_pair with
          vertex_pos :=
            [⟨0, 0⟩,
             ⟨85070591730234615865843651857942052864
                / 170141183460469231731687303715884105729,
              85070591730234615865843651857942052864
                / 170141183460469231731687303715884105729⟩] } ∧
    gr_render_ctx_normalize_ex ieee_single
        { below_zero_pair with
          vertex_pos :=
            [⟨0, 0⟩,
             ⟨85070591730234615865843651857942052864
                / 170141183460469231731687303715884105729,
              85070591730234615865843651857942052864
                / 170141183460469231731687303715884105729⟩] } ⟨0, 0⟩ ⟨1, 1⟩
      = some { below_zero_pair with vertex_pos := [⟨0, 0⟩, ⟨1, 1⟩] } ∧
    ([⟨0, 0⟩, ⟨1, 1⟩] : List (gr_Vec2 ℚ))
      ≠ [⟨0, 0⟩,
         ⟨85070591730234615865843651857942052864
            / 170141183460469231731687303715884105729,
          85070591730234615865843651857942052864
            / 170141183460469231731687303715884105729⟩] := by
  refine ⟨?_, ?_, ?_⟩
  · simp [gr_render_ctx_normalize_ex, below_zero_pair, gr_normalize_scan, List.range_succ,
      gr_normalize_scan_body, gr_normalize_lerp_body, vertex_pos_at, ieee_single, gr_lerpf]
    norm_num
  · simp [gr_render_ctx_normalize_ex, below_zero_pair, gr_normalize_scan, List.range_succ,
      gr_normalize_scan_body, gr_normalize_lerp_body, vertex_pos_at, ieee_single, gr_lerpf]
    norm_num
  · intro h
    have h1 := (List.cons.inj (List.cons.inj h).2).1
    have hx := congrArg gr_Vec2.x h1
    norm_num at hx

theorem min_rec_le (a c : Nat → F) (n : Nat)
    (h : ∀ m, m < n → a (m + 1) = min (a m) (c m)) :
    ∀ k, k ≤ n → ∀ i, i < k → a k ≤ c i := by
  intro k
  induction k with
  | zero => intro _ i hi; omega
  | succ k ih =>
    intro hk i hi
    rw [h k (by omega)]
    by_cases hik : i = k
    · subst hik; exact min_le_right _ _
    · exact le_trans (min_le_left _ _) (ih (by omega) i (by omega))

theorem max_rec_ge (a c : Nat → F) (n : Nat)
    (h : ∀ m, m < n → a (m + 1) = max (a m) (c m)) :
    ∀ k, k ≤ n → ∀ i, i < k → c i ≤ a k := by
  intro k
  induction k with
  | zero => intro _ i hi; omega
  | succ k ih =>
    intro hk i hi
    rw [h k (by omega)]
    by_cases hik : i = k
    · subst hik; exact le_max_right _ _
    · exact le_trans (ih (by omega) i (by omega)) (le_max_left _ _)

theorem min_rec_attained (a c : Nat → F) (n : Nat)
    (h : ∀ m, m < n → a (m + 1) = min (a m) (c m)) :
    ∀ k, k ≤ n → a k = a 0 ∨ ∃ i, i < k ∧ a k = c i := by
  intro k
  induction k with
  | zero => intro _; exact Or.inl rfl
  | succ k ih =>
    intro hk
    rw [h k (by omega)]
    rcases min_choice (a k) (c k) with hm | hm
    · rw [hm]
      rcases ih (by omega) with h0 | ⟨i, hi, hai⟩
      · exact Or.inl h0
      · exact Or.inr ⟨i, by omega, hai⟩
    · rw [hm]
      exact Or.inr ⟨k, by omega, rfl⟩

theorem max_rec_attained (a c : Nat → F) (n : Nat)
    (h : ∀ m, m < n → a (m + 1) = max (a m) (c m)) :
    ∀ k, k ≤ n → a k = a 0 ∨ ∃ i, i < k ∧ a k = c i := by
  intro k
  induction k with
  | zero => intro _; exact Or.inl rfl
  | succ k ih =>
    intro hk
    rw [h k (by omega)]
    rcases max_choice (a k) (c k) with hm | hm
    · rw [hm]
      rcases ih (by omega) with h0 | ⟨i, hi, hai⟩
      · exact Or.inl h0
      · exact Or.inr ⟨i, by omega, hai⟩
    · rw [hm]
      exact Or.inr ⟨k, by omega, rfl⟩

/-- A running minimum that starts at or above the least of the values
`c 0, ..., c (n-1)`, which is `lo`, ends at `lo`. -/
theorem min_rec_eq (a c : Nat → F) (n : Nat) (lo : F)
    (h : ∀ m, m < n → a (m + 1) = min (a m) (c m))
    (hlo : ∀ i, i < n → lo ≤ c i) (hatt : ∃ i, i < n ∧ c i = lo) (hstart : lo ≤ a 0) :
    a n = lo := by
  obtain ⟨i0, hi0, hc0⟩ := hatt
  apply le_antisymm
  · rw [← hc0]
    exact min_rec_le a c n h n (le_refl n) i0 hi0
  · rcases min_rec_attained a c n h n (le_refl n) with h0 | ⟨i, hi, hai⟩
    · rw [h0]; exact hstart
    · rw [hai]; exact hlo i hi

/-- A running maximum that starts at or below the greatest of the values
`c 0, ..., c (n-1)`, which is `hi`, ends at `hi`. -/
theorem max_rec_eq (a c : Nat → F) (n : Nat) (hi : F)
    (h : ∀ m, m < n → a (m + 1) = max (a m) (c m))
    (hhi : ∀ i, i < n → c i ≤ hi) (hatt : ∃ i, i < n ∧ c i = hi) (hstart : a 0 ≤ hi) :
    a n = hi := by
  obtain ⟨i0, hi0, hc0⟩ := hatt
  apply le_antisymm
  · rcases max_rec_attained a c n h n (le_refl n) with h0 | ⟨i, hi2, hai⟩
    · rw [h0]; exact hstart
    · rw [hai]; exact hhi i hi2
  · rw [← hc0]
    exact max_rec_ge a c n h n (le_refl n) i0 hi0

theorem gr_lerpf_at_min (mn mx a b : F) : gr_lerpf mn mn mx a b = a := by
  simp [gr_lerpf]

theorem gr_lerpf_at_max (mn mx a b : F) (h : mn < mx) : gr_lerpf mx mn mx a b = b := by
  have hne : mx - mn ≠ 0 := by
    have : 0 < mx - mn := by linarith
    exact ne_of_gt this
  unfold gr_lerpf
  rw [div_self hne]
  ring

theorem gr_lerpf_same (v a b : F) (h : a < b) : gr_lerpf v a b a b = v := by
  have hne : b - a ≠ 0 := by
    have : 0 < b - a := by linarith
    exact ne_of_gt this
  unfold gr_lerpf
  rw [div_mul_cancel₀ _ hne]
  ring

/-- One axis of a double normalization, for coordinates `c 0, ..., c (n-1)`
with two distinct values, none above `fmax` and one at least `fmin`, and a
target interval `lo < hi` with `lo <= fmax` and `fmin <= hi`: the second
scan finds `lo` and `hi`, so the second interpolation returns its
argument. -/
theorem axis_idempotent (c : Nat → F) (n : Nat) (a b a2 b2 : Nat → F)
    (lo hi fmax fmin : F)
    (ha0 : a 0 = fmax) (ha : ∀ m, m < n → a (m + 1) = min (a m) (c m))
    (hb0 : b 0 = fmin) (hb : ∀ m, m < n → b (m + 1) = max (b m) (c m))
    (ha20 : a2 0 = fmax)
    (ha2 : ∀ m, m < n → a2 (m + 1) = min (a2 m) (gr_lerpf (c m) (a n) (b n) lo hi))
    (hb20 : b2 0 = fmin)
    (hb2 : ∀ m, m < n → b2 (m + 1) = max (b2 m) (gr_lerpf (c m) (a n) (b n) lo hi))
    (hdist : ∃ i j, i < n ∧ j < n ∧ c i ≠ c j) (hlohi : lo < hi)
    (hcmax : ∀ i, i < n → c i ≤ fmax) (hcmin : ∃ j, j < n ∧ fmin ≤ c j)
    (hlo : lo ≤ fmax) (hhi : fmin ≤ hi) :
    ∀ i, i < n →
      gr_lerpf (gr_lerpf (c i) (a n) (b n) lo hi) (a2 n) (b2 n) lo hi
        = gr_lerpf (c i) (a n) (b n) lo hi := by
  have hle := min_rec_le a c n ha n (le_refl n)
  have hge := max_rec_ge b c n hb n (le_refl n)
  have hlt : a n < b n := by
    obtain ⟨i, j, hi2, hj, hne⟩ := hdist
    rcases lt_or_gt_of_ne hne with h | h
    · exact lt_of_le_of_lt (hle i hi2) (lt_of_lt_of_le h (hge j hj))
    · exact lt_of_le_of_lt (hle j hj) (lt_of_lt_of_le h (hge i hi2))
  have hamin : ∃ i, i < n ∧ c i = a n := by
    rcases min_rec_attained a c n ha n (le_refl n) with h0 | ⟨i, hi2, hai⟩
    · obtain ⟨i, _, hi2, _, _⟩ := hdist
      refine ⟨i, hi2, le_antisymm ?_ (hle i hi2)⟩
      rw [h0, ha0]
      exact hcmax i hi2
    · exact ⟨i, hi2, hai.symm⟩
  have hbmax : ∃ j, j < n ∧ c j = b n := by
    rcases max_rec_attained b c n hb n (le_refl n) with h0 | ⟨j, hj, hbj⟩
    · obtain ⟨j, hj, hfj⟩ := hcmin
      refine ⟨j, hj, le_antisymm (hge j hj) ?_⟩
      rw [h0, hb0]
      exact hfj
    · exact ⟨j, hj, hbj.symm⟩
  have hmem : ∀ i, i < n → lo ≤ gr_lerpf (c i) (a n) (b n) lo hi ∧
      gr_lerpf (c i) (a n) (b n) lo hi ≤ hi :=
    fun i hi2 => gr_lerpf_mem (c i) (a n) (b n) lo hi (hle i hi2) (hge i hi2) hlt hlohi
  have ha2n : a2 n = lo := by
    obtain ⟨i, hi2, hci⟩ := hamin
    exact min_rec_eq a2 (fun m => gr_lerpf (c m) (a n) (b n) lo hi) n lo ha2
      (fun i hi3 => (hmem i hi3).1)
      ⟨i, hi2, by simp only [hci]; exact gr_lerpf_at_min _ _ _ _⟩
      (by rw [ha20]; exact hlo)
  have hb2n : b2 n = hi := by
    obtain ⟨j, hj, hcj⟩ := hbmax
    exact max_rec_eq b2 (fun m => gr_lerpf (c m) (a n) (b n) lo hi) n hi hb2
      (fun i hi3 => (hmem i hi3).2)
      ⟨j, hj, by simp only [hcj]; exact gr_lerpf_at_max _ _ _ _ hlt⟩
      (by rw [hb20]; exact hhi)
  intro i _
  rw [ha2n, hb2n, gr_lerpf_same _ lo hi hlohi]

theorem list_eq_of_pos_at (l1 l2 : List (gr_Vec2 F)) (hl : l1.length = l2.length)
    (h : ∀ i, i < l1.length → vertex_pos_at l1 i = vertex_pos_at l2 i) : l1 = l2 := by
  apply List.ext_getElem?
  intro i
  by_cases hi : i < l1.length
  · have h2 := h i hi
    simp only [vertex_pos_at, List.getD_eq_getElem?_getD, List.getElem?_eq_getElem hi,
      List.getElem?_eq_getElem (hl ▸ hi), Option.getD_some] at h2
    rw [List.getElem?_eq_getElem hi, List.getElem?_eq_getElem (hl ▸ hi), h2]
  · rw [List.getElem?_eq_none (by omega), List.getElem?_eq_none (by omega)]

/-- Where the start value `FLT_MIN` of `max` plays no part, normalizing
twice gives the positions of normalizing once: the context has one position
per vertex with two distinct values on each axis, no coordinate is above
`FLT_MAX`, on each axis some coordinate is at least `FLT_MIN`, and the
target box satisfies `mins <= FLT_MAX` and `FLT_MIN <= maxs`. -/
theorem normalize_twice_same (L : FloatH F) (ctx : gr_RenderContext F)
    (mins maxs : gr_Vec2 F)
    (hlen : ctx.vertex_pos.length = ctx.graph.n_verticies)
    (hx : ∃ a b, a < ctx.graph.n_verticies ∧ b < ctx.graph.n_verticies ∧
      (vertex_pos_at ctx.vertex_pos a).x ≠ (vertex_pos_at ctx.vertex_pos b).x)
    (hy : ∃ a b, a < ctx.graph.n_verticies ∧ b < ctx.graph.n_verticies ∧
      (vertex_pos_at ctx.vertex_pos a).y ≠ (vertex_pos_at ctx.vertex_pos b).y)
    (hmx : mins.x < maxs.x) (hmy : mins.y < maxs.y)
    (hcx : ∀ i, i < ctx.graph.n_verticies → (vertex_pos_at ctx.vertex_pos i).x ≤ L.FLT_MAX)
    (hcy : ∀ i, i < ctx.graph.n_verticies → (vertex_pos_at ctx.vertex_pos i).y ≤ L.FLT_MAX)
    (hbx : ∃ j, j < ctx.graph.n_verticies ∧ L.FLT_MIN ≤ (vertex_pos_at ctx.vertex_pos j).x)
    (hby : ∃ j, j < ctx.graph.n_verticies ∧ L.FLT_MIN ≤ (vertex_pos_at ctx.vertex_pos j).y)
    (hlox : mins.x ≤ L.FLT_MAX) (hloy : mins.y ≤ L.FLT_MAX)
    (hhix : L.FLT_MIN ≤ maxs.x) (hhiy : L.FLT_MIN ≤ maxs.y) :
    ∃ once twice, gr_render_ctx_normalize_ex L ctx mins maxs = some once ∧
      gr_render_ctx_normalize_ex L once mins maxs = some twice ∧
      twice.vertex_pos = once.vertex_pos := by
  refine ⟨_, _, if_pos ⟨hmx, hmy⟩, if_pos ⟨hmx, hmy⟩, ?_⟩
  have hQlen : ((List.range ctx.graph.n_verticies).foldl
      (gr_normalize_lerp_body (gr_normalize_scan L ctx).1 (gr_normalize_scan L ctx).2
        mins maxs) ctx.vertex_pos).length = ctx.graph.n_verticies := by
    rw [set_loop_length _ _ (normalize_lerp_body_eq _ _ mins maxs), hlen]
  have hQ : ∀ m, m < ctx.graph.n_verticies →
      vertex_pos_at ((List.range ctx.graph.n_verticies).foldl
        (gr_normalize_lerp_body (gr_normalize_scan L ctx).1 (gr_normalize_scan L ctx).2
          mins maxs) ctx.vertex_pos) m
        = { x := gr_lerpf (vertex_pos_at ctx.vertex_pos m).x (gr_normalize_scan L ctx).1.x
                 (gr_normalize_scan L ctx).2.x mins.x maxs.x,
            y := gr_lerpf (vertex_pos_at ctx.vertex_pos m).y (gr_normalize_scan L ctx).1.y
                 (gr_normalize_scan L ctx).2.y mins.y maxs.y } :=
    fun m hm => normalize_loop_get _ _ mins maxs ctx.vertex_pos ctx.graph.n_verticies m hm
      (by rw [hlen]; exact hm)
  apply list_eq_of_pos_at
  · simp only [set_loop_length _ _ (normalize_lerp_body_eq _ _ mins maxs)]
  · intro i hi
    have hlenR : i < ctx.graph.n_verticies := by
      simp only [set_loop_length _ _ (normalize_lerp_body_eq _ _ mins maxs)] at hi
      rw [hlen] at hi
      exact hi
    rw [normalize_loop_get _ _ mins maxs _ ctx.graph.n_verticies i hlenR
      (by rw [hQlen]; exact hlenR)]
    rw [hQ i hlenR]
    have hX := axis_idempotent (fun m => (vertex_pos_at ctx.vertex_pos m).x)
      ctx.graph.n_verticies
      (fun m => ((List.range m).foldl (gr_normalize_scan_body ctx.vertex_pos)
        (({ x := L.FLT_MAX, y := L.FLT_MAX } : gr_Vec2 F),
          ({ x := L.FLT_MIN, y := L.FLT_MIN } : gr_Vec2 F))).1.x)
      (fun m => ((List.range m).foldl (gr_normalize_scan_body ctx.vertex_pos)
        (({ x := L.FLT_MAX, y := L.FLT_MAX } : gr_Vec2 F),
          ({ x := L.FLT_MIN, y := L.FLT_MIN } : gr_Vec2 F))).2.x)
      (fun m => ((List.range m).foldl (gr_normalize_scan_body
        ((List.range ctx.graph.n_verticies).foldl
          (gr_normalize_lerp_body (gr_normalize_scan L ctx).1 (gr_normalize_scan L ctx).2
            mins maxs) ctx.vertex_pos))
        (({ x := L.FLT_MAX, y := L.FLT_MAX } : gr_Vec2 F),
          ({ x := L.FLT_MIN, y := L.FLT_MIN } : gr_Vec2 F))).1.x)
      (fun m => ((List.range m).foldl (gr_normalize_scan_body
        ((List.range ctx.graph.n_verticies).foldl
          (gr_normalize_lerp_body (gr_normalize_scan L ctx).1 (gr_normalize_scan L ctx).2
            mins maxs) ctx.vertex_pos))
        (({ x := L.FLT_MAX, y := L.FLT_MAX } : gr_Vec2 F),
          ({ x := L.FLT_MIN, y := L.FLT_MIN } : gr_Vec2 F))).2.x)
      mins.x maxs.x L.FLT_MAX L.FLT_MIN rfl
      (fun m _ => by simp only [foldl_range_succ, scan_body_fst_x])
      rfl
      (fun m _ => by simp only [foldl_range_succ, scan_body_snd_x])
      rfl
      (fun m hm => by
        simp only [foldl_range_succ, scan_body_fst_x, hQ m hm]
        rfl)
      rfl
      (fun m hm => by
        simp only [foldl_range_succ, scan_body_snd_x, hQ m hm]
        rfl)
      hx hmx hcx hbx hlox hhix i hlenR
    have hY := axis_idempotent (fun m => (vertex_pos_at ctx.vertex_pos m).y)
      ctx.graph.n_verticies
      (fun m => ((List.range m).foldl (gr_normalize_scan_body ctx.vertex_pos)
        (({ x := L.FLT_MAX, y := L.FLT_MAX } : gr_Vec2 F),
          ({ x := L.FLT_MIN, y := L.FLT_MIN } : gr_Vec2 F))).1.y)
      (fun m => ((List.range m).foldl (gr_normalize_scan_body ctx.vertex_pos)
        (({ x := L.FLT_MAX, y := L.FLT_MAX } : gr_Vec2 F),
          ({ x := L.FLT_MIN, y := L.FLT_MIN } : gr_Vec2 F))).2.y)
      (fun m => ((List.range m).foldl (gr_normalize_scan_body
        ((List.range ctx.graph.n_verticies).foldl
          (gr_normalize_lerp_body (gr_normalize_scan L ctx).1 (gr_normalize_scan L ctx).2
            mins maxs) ctx.vertex_pos))
        (({ x := L.FLT_MAX, y := L.FLT_MAX } : gr_Vec2 F),
          ({ x := L.FLT_MIN, y := L.FLT_MIN } : gr_Vec2 F))).1.y)
      (fun m => ((List.range m).foldl (gr_normalize_scan_body
        ((List.range ctx.graph.n_verticies).foldl
          (gr_normalize_lerp_body (gr_normalize_scan L ctx).1 (gr_normalize_scan L ctx).2
            mins maxs) ctx.vertex_pos))
        (({ x := L.FLT_MAX, y := L.FLT_MAX } : gr_Vec2 F),
          ({ x := L.FLT_MIN, y := L.FLT_MIN } : gr_Vec2 F))).2.y)
      mins.y maxs.y L.FLT_MAX L.FLT_MIN rfl
      (fun m _ => by simp only [foldl_range_succ, scan_body_fst_y])
      rfl
      (fun m _ => by simp only [foldl_range_succ, scan_body_snd_y])
      rfl
      (fun m hm => by
        simp only [foldl_range_succ, scan_body_fst_y, hQ m hm]
        rfl)
      rfl
      (fun m hm => by
        simp only [foldl_range_succ, scan_body_snd_y, hQ m hm]
        rfl)
      hy hmy hcy hby hloy hhiy i hlenR
    have hXe : gr_lerpf
        (gr_lerpf (vertex_pos_at ctx.vertex_pos i).x (gr_normalize_scan L ctx).1.x
          (gr_normalize_scan L ctx).2.x mins.x maxs.x)
        (gr_normalize_scan L
          { ctx with vertex_pos := ((List.range ctx.graph.n_verticies).foldl
              (gr_normalize_lerp_body (gr_normalize_scan L ctx).1
                (gr_normalize_scan L ctx).2 mins maxs) ctx.vertex_pos) }).1.x
        (gr_normalize_scan L
          { ctx with vertex_pos := ((List.range ctx.graph.n_verticies).foldl
              (gr_normalize_lerp_body (gr_normalize_scan L ctx).1
                (gr_normalize_scan L ctx).2 mins maxs) ctx.vertex_pos) }).2.x
        mins.x maxs.x
        = gr_lerpf (vertex_pos_at ctx.vertex_pos i).x (gr_normalize_scan L ctx).1.x
          (gr_normalize_scan L ctx).2.x mins.x maxs.x := hX
    have hYe : gr_lerpf
        (gr_lerpf (vertex_pos_at ctx.vertex_pos i).y (gr_normalize_scan L ctx).1.y
          (gr_normalize_scan L ctx).2.y mins.y maxs.y)
        (gr_normalize_scan L
          { ctx with vertex_pos := ((List.range ctx.graph.n_verticies).foldl
              (gr_normalize_lerp_body (gr_normalize_scan L ctx).1
                (gr_normalize_scan L ctx).2 mins maxs) ctx.vertex_pos) }).1.y
        (gr_normalize_scan L
          { ctx with vertex_pos := ((List.range ctx.graph.n_verticies).foldl
              (gr_normalize_lerp_body (gr_normalize_scan L ctx).1
                (gr_normalize_scan L ctx).2 mins maxs) ctx.vertex_pos) }).2.y
        mins.y maxs.y
        = gr_lerpf (vertex_pos_at ctx.vertex_pos i).y (gr_normalize_scan L ctx).1.y
          (gr_normalize_scan L ctx).2.y mins.y maxs.y := hY
    simp only [hXe, hYe]

theorem normalize_twice_same_example :
    ∃ once twice,
      gr_render_ctx_normalize_ex ieee_single above_zero_pair ⟨0, 0⟩ ⟨1, 1⟩ = some once ∧
      gr_render_ctx_normalize_ex ieee_single once ⟨0, 0⟩ ⟨1, 1⟩ = some twice ∧
      twice.vertex_pos = once.vertex_pos :=
  normalize_twice_same ieee_single above_zero_pair ⟨0, 0⟩ ⟨1, 1⟩ rfl
    ⟨0, 1, by decide, by decide, by simp [above_zero_pair, vertex_pos_at]⟩
    ⟨0, 1, by decide, by decide, by simp [above_zero_pair, vertex_pos_at]⟩
    (by norm_num) (by norm_num)
    (fun i hi => by
      have h2 : i < 2 := hi
      interval_cases i <;> norm_num [above_zero_pair, vertex_pos_at, ieee_single])
    (fun i hi => by
      have h2 : i < 2 := hi
      interval_cases i <;> norm_num [above_zero_pair, vertex_pos_at, ieee_single])
    ⟨0, by decide, by simp [above_zero_pair, vertex_pos_at, ieee_single]; norm_num⟩
    ⟨0, by decide, by simp [above_zero_pair, vertex_pos_at, ieee_single]; norm_num⟩
    (by simp [ieee_single]) (by simp [ieee_single])
    (by simp [ieee_single]; norm_num) (by simp [ieee_single]; norm_num)

end Idempotence

end Gray
